import Mathlib

/-!
# Bit-exact codec of `scripts/syntest/sw/hello_afu.cpp`

A shallow embedding of the buffer routines of `hello_afu.cpp`
(`array_reset`, `array_change_endian`, `array_get`, `array_put`,
`array_load_file`) together with theorems about them.

Conventions of the embedding:

* The buffer `volatile char* buf` is a list of bytes, each byte being its 8-bit
  pattern (`Fin 256`).  Every access is checked against the length of the list;
  an access outside the list is undefined behaviour in C and is reported here as
  `Fault.outOfBounds`.
* `char` is the signed 8-bit type of the x86-64 Linux ABI on which the program
  runs (the source itself speaks of "negative values" of a `char`).  Reading a
  `char` yields the two's complement value of the pattern (`schar`); storing an
  integer into a `char` keeps the low eight bits (`toChar`).  Operands of `>>`,
  `&` and `|` are promoted to `int` (32 bits, two's complement), hence these
  operators act on integers, and `>>` on a negative operand is the arithmetic
  shift.
* `uint64_t` is a natural number reduced modulo `2^64`; a shift of a `uint64_t`
  by 64 or more is undefined in C and is reported as `Fault.shiftTooWide`.
* `int` counters (bit offsets, indices, lengths) are natural numbers; negative
  arguments and overflow of `int` are outside the model.
* `<<` on an `int` multiplies by a power of two (GCC defines it so for negative
  operands as well).
* The file read by `array_load_file` is the list of its characters; the file is
  assumed to exist (the code asserts it).
* Loops carry a fuel argument that bounds the number of iterations; running out
  of fuel is reported as `Fault.outOfFuel`.  The section on the sufficiency of
  the fuel shows that no entry point ever reports it.
* The states of the two codec loops carry a ghost field `trace`, the list of the
  byte indices accessed so far, in order.
-/

namespace HelloAfu

/-- The constant `CHAR_BIT` of `<limits.h>`. -/
def CHAR_BIT : Nat := 8

/-- Modelled from the spec: the macro `CL` is defined in the header
`opae_svc_wrapper.h`, which is not among the sources; the spec fixes the size of a
cache line at `L = 64` bytes, so `CL(x)` is the byte offset of cache line `x`. -/
def CL (x : Nat) : Nat := x * 64

/-- A byte of memory, as its 8-bit pattern. -/
abbrev Byte := Fin 256

/-- Ways in which a run of the C code leaves defined behaviour (or, for
`outOfFuel`, in which the embedding stops a loop). -/
inductive Fault where
  | outOfBounds
  | shiftTooWide
  | outOfFuel
  deriving DecidableEq, Repr

/-- Outcome of a run: a fault or a result. -/
inductive Res (α : Type) where
  | fault : Fault → Res α
  | ok : α → Res α
  deriving DecidableEq, Repr

/-- Sequencing of runs: a fault stops the run. -/
def Res.bind {α β : Type} (r : Res α) (f : α → Res β) : Res β :=
  match r with
  | .fault e => .fault e
  | .ok a => f a

/-- The value obtained by reading a `char` whose pattern is `b` (two's complement). -/
def schar (b : Byte) : Int :=
  if b.val < 128 then (b.val : Int) else (b.val : Int) - 256

/-- Conversion of an integer to `char`: the low eight bits are kept. -/
def toChar (x : Int) : Byte :=
  ⟨(x % 256).toNat, by omega⟩

/-- The 32-bit two's complement pattern of an `int`. -/
def intBits (x : Int) : Nat := (x % 4294967296).toNat

/-- The `int` whose 32-bit two's complement pattern is `p`. -/
def ofIntBits (p : Nat) : Int :=
  if p < 2147483648 then (p : Int) else (p : Int) - 4294967296

/-- The operator `&` on two `int` operands. -/
def int_and (a b : Int) : Int := ofIntBits (intBits a &&& intBits b)

/-- The operator `|` on two `int` operands. -/
def int_or (a b : Int) : Int := ofIntBits (intBits a ||| intBits b)

/-- Checked read `buf[idx]`. -/
def load (buf : List Byte) (idx : Nat) : Res Byte :=
  match buf[idx]? with
  | some b => .ok b
  | none => .fault .outOfBounds

/-- Checked write `buf[idx] = b`. -/
def store (buf : List Byte) (idx : Nat) (b : Byte) : Res (List Byte) :=
  if idx < buf.length then .ok (buf.set idx b) else .fault .outOfBounds

/-- The function `array_reset`: `for (i = 0; i < len; i++) buf[i] = 0;`, started
at index `i` with `fuel` iterations allowed. -/
def array_reset_for (len : Nat) : Nat → Nat → List Byte → Res (List Byte)
  | 0, i, buf => if i < len then .fault .outOfFuel else .ok buf
  | fuel + 1, i, buf =>
    if i < len then
      (store buf i 0).bind fun buf1 => array_reset_for len fuel (i + 1) buf1
    else .ok buf

/-- The function `array_reset(buf, len)`. -/
def array_reset (buf : List Byte) (len : Nat) : Res (List Byte) :=
  array_reset_for len len 0 buf

/-- Inner loop of `array_change_endian`:
`for (j = 0; j < wordlength/2; j++) { tmp = buf[i+j]; buf[i+j] = buf[i+wordlength-1-j];
buf[i+wordlength-1-j] = tmp; }`, started at `j`. -/
def array_change_endian_swap (i wordlength : Nat) : Nat → Nat → List Byte → Res (List Byte)
  | 0, j, buf => if j < wordlength / 2 then .fault .outOfFuel else .ok buf
  | fuel + 1, j, buf =>
    if j < wordlength / 2 then
      (load buf (i + j)).bind fun tmp =>
      (load buf (i + wordlength - 1 - j)).bind fun other =>
      (store buf (i + j) other).bind fun buf1 =>
      (store buf1 (i + wordlength - 1 - j) tmp).bind fun buf2 =>
      array_change_endian_swap i wordlength fuel (j + 1) buf2
    else .ok buf

/-- Outer loop of `array_change_endian`:
`for (i = 0; i < len; i += wordlength) { ... }`, started at `i`. -/
def array_change_endian_for (len wordlength : Nat) : Nat → Nat → List Byte → Res (List Byte)
  | 0, i, buf => if i < len then .fault .outOfFuel else .ok buf
  | fuel + 1, i, buf =>
    if i < len then
      (array_change_endian_swap i wordlength (wordlength / 2) 0 buf).bind fun buf1 =>
      array_change_endian_for len wordlength fuel (i + wordlength) buf1
    else .ok buf

/-- The function `array_change_endian(buf, len)`, with `wordlength = CL(1)`. -/
def array_change_endian (buf : List Byte) (len : Nat) : Res (List Byte) :=
  array_change_endian_for len (CL 1) len 0 buf

/-- State of the `for` loop of `array_get`: the cursor, the outputs
`values[0 .. valueIdx)` written so far, and the byte indices read so far. -/
structure GetState where
  cacheLine : Nat
  bitPosInCL : Nat
  values : List Nat
  trace : List Nat
  deriving DecidableEq, Repr

/-- The `while (consumedBits < valueBitWidth)` loop of `array_get`; `acc` is the
current content of `values[valueIdx]`. -/
def array_get_while (buf : List Byte) (valueBitWidth cacheLine bitPosInCL : Nat) :
    Nat → Nat → Nat → List Nat → Res (Nat × List Nat)
  | 0, consumedBits, acc, trace =>
    if consumedBits < valueBitWidth then .fault .outOfFuel else .ok (acc, trace)
  | fuel + 1, consumedBits, acc, trace =>
    if consumedBits < valueBitWidth then
      let discardBits := (bitPosInCL + consumedBits) % CHAR_BIT
      let useBits := CHAR_BIT - discardBits
      let idx := CL cacheLine + (bitPosInCL + consumedBits) / CHAR_BIT
      (load buf idx).bind fun b =>
      let byte := toChar (schar b >>> discardBits)
      let masked := useBits > valueBitWidth - consumedBits
      let useBits := if masked then valueBitWidth - consumedBits else useBits
      let byte := if masked then toChar (int_and (schar byte) (((1 <<< useBits : Nat) : Int) - 1)) else byte
      let value := (int_and 0xff (schar byte)).toNat
      if 64 ≤ consumedBits then .fault .shiftTooWide
      else
        array_get_while buf valueBitWidth cacheLine bitPosInCL fuel (consumedBits + useBits)
          ((acc ||| (value <<< consumedBits)) % 2 ^ 64) (trace ++ [idx])
    else .ok (acc, trace)

/-- One iteration of the `for` loop of `array_get`: extract one value, then
advance the cursor (lines 242-247). -/
def array_get_body (buf : List Byte) (valueBitWidth : Nat) (st : GetState) : Res GetState :=
  (array_get_while buf valueBitWidth st.cacheLine st.bitPosInCL valueBitWidth 0 0 st.trace).bind
    fun r =>
    let bitPosInCL := st.bitPosInCL + valueBitWidth
    if bitPosInCL + valueBitWidth > CL 1 * CHAR_BIT then
      .ok ⟨st.cacheLine + 1, 0, st.values ++ [r.1], r.2⟩
    else
      .ok ⟨st.cacheLine, bitPosInCL, st.values ++ [r.1], r.2⟩

/-- The `for (valueIdx = 0; valueIdx < valuesLen; valueIdx++)` loop of `array_get`,
run for the given number of iterations. -/
def array_get_for (buf : List Byte) (valueBitWidth : Nat) : Nat → GetState → Res GetState
  | 0, st => .ok st
  | n + 1, st =>
    (array_get_body buf valueBitWidth st).bind fun st1 => array_get_for buf valueBitWidth n st1

/-- The state in which `array_get` enters its `for` loop. -/
def array_get_init (cacheLine : Nat) : GetState := ⟨cacheLine, 0, [], []⟩

/-- The function `array_get(buf, cacheLine, values, valuesLen, valueBitWidth)`; the
result is the content of `values[0 .. valuesLen)`. -/
def array_get (buf : List Byte) (cacheLine valuesLen valueBitWidth : Nat) : Res (List Nat) :=
  (array_get_for buf valueBitWidth valuesLen (array_get_init cacheLine)).bind
    fun st => .ok st.values

/-- State of the `for` loop of `array_put`: the buffer, the cursor, and the byte
indices read and written so far. -/
structure PutState where
  buf : List Byte
  cacheLine : Nat
  bitPosInCL : Nat
  trace : List Nat
  deriving DecidableEq, Repr

/-- The `while (value > 0)` loop of `array_put`. -/
def array_put_while (cacheLine : Nat) :
    Nat → List Byte → Nat → Nat → List Nat → Res (List Byte × List Nat)
  | 0, buf, value, _, trace => if value > 0 then .fault .outOfFuel else .ok (buf, trace)
  | fuel + 1, buf, value, currentPos, trace =>
    if value > 0 then
      let discardBits := currentPos % CHAR_BIT
      let useBits := CHAR_BIT - discardBits
      let byte := toChar ((((value &&& ((1 <<< useBits) - 1)) <<< discardBits) % 2 ^ 64 : Nat) : Int)
      let idx := CL cacheLine + currentPos / CHAR_BIT
      (load buf idx).bind fun old =>
      (store buf idx (toChar (int_or (schar old) (schar byte)))).bind fun buf1 =>
      array_put_while cacheLine fuel buf1 (value >>> useBits) (currentPos + useBits)
        (trace ++ [idx])
    else .ok (buf, trace)

/-- One iteration of the `for` loop of `array_put` for the element `v` of
`values`: store the value (a `uint64_t`), then advance the cursor (lines 272-277). -/
def array_put_body (valueBitWidth : Nat) (v : Nat) (st : PutState) : Res PutState :=
  (array_put_while st.cacheLine 64 st.buf (v % 2 ^ 64) st.bitPosInCL st.trace).bind fun r =>
    let bitPosInCL := st.bitPosInCL + valueBitWidth
    if bitPosInCL + valueBitWidth > CL 1 * CHAR_BIT then
      .ok ⟨r.1, st.cacheLine + 1, 0, r.2⟩
    else
      .ok ⟨r.1, st.cacheLine, bitPosInCL, r.2⟩

/-- The `for (valueIdx = 0; valueIdx < valuesLen; valueIdx++)` loop of `array_put`
over the elements of `values`. -/
def array_put_for (valueBitWidth : Nat) : List Nat → PutState → Res PutState
  | [], st => .ok st
  | v :: vs, st =>
    (array_put_body valueBitWidth v st).bind fun st1 => array_put_for valueBitWidth vs st1

/-- The state in which `array_put` enters its `for` loop. -/
def array_put_init (buf : List Byte) (cacheLine : Nat) : PutState := ⟨buf, cacheLine, 0, []⟩

/-- The function `array_put(buf, cacheLine, values, valuesLen, valueBitWidth)` with
`valuesLen` the length of `values`; the result is the buffer after the call. -/
def array_put (buf : List Byte) (cacheLine : Nat) (values : List Nat) (valueBitWidth : Nat) :
    Res (List Byte) :=
  (array_put_for valueBitWidth values (array_put_init buf cacheLine)).bind fun st => .ok st.buf

/-- The characters that the formatted extraction `fin >> c` skips: white space in
the sense of `isspace` (space, and the controls 9 to 13). -/
def isspace (c : Char) : Bool :=
  decide (c.toNat = 32) || (decide (9 ≤ c.toNat) && decide (c.toNat ≤ 13))

/-- State of the loop of `array_load_file`: the buffer, the accumulator `byte`,
`pos`, `receivedbits`, and the buffer indices written so far. -/
structure LoadState where
  buf : List Byte
  byte : Byte
  pos : Nat
  receivedbits : Nat
  trace : List Nat
  deriving DecidableEq, Repr

/-- Lines 304-310 of `array_load_file`, executed after a bit has been shifted into
the accumulator, whose new content is `byte`:
`receivedbits++; if (receivedbits >= CHAR_BIT) { buf[pos] = byte; pos++; receivedbits = 0; }`. -/
def array_load_file_received (byte : Byte) (st : LoadState) : Res LoadState :=
  let receivedbits := st.receivedbits + 1
  if receivedbits ≥ CHAR_BIT then
    (store st.buf st.pos byte).bind fun buf1 =>
      .ok ⟨buf1, byte, st.pos + 1, 0, st.trace ++ [st.pos]⟩
  else .ok ⟨st.buf, byte, st.pos, receivedbits, st.trace⟩

/-- The loop `while (fin >> c) { ... }` of `array_load_file` over the remaining
characters of the file. -/
def array_load_file_while : List Char → LoadState → Res LoadState
  | [], st => .ok st
  | c :: rest, st =>
    if isspace c then array_load_file_while rest st
    else if c = '1' then
      (array_load_file_received (toChar (schar (toChar (schar st.byte * 2)) + 1)) st).bind
        fun st1 => array_load_file_while rest st1
    else if c = '0' then
      (array_load_file_received (toChar (schar st.byte * 2)) st).bind
        fun st1 => array_load_file_while rest st1
    else array_load_file_while rest st

/-- The state in which `array_load_file` enters its loop. -/
def array_load_file_init (buf : List Byte) : LoadState := ⟨buf, 0, 0, 0, []⟩

/-- The function `array_load_file(buf, filename)` on the content `file` of the file;
the result is the buffer after the call and the returned `pos`. -/
def array_load_file (buf : List Byte) (file : List Char) : Res (List Byte × Nat) :=
  (array_load_file_while file (array_load_file_init buf)).bind fun st => .ok (st.buf, st.pos)

/-- The bits of a file: its characters `'0'` and `'1'`, in order. -/
def bitsOf (file : List Char) : List Bool :=
  (file.filter fun c => decide (c = '0') || decide (c = '1')).map fun c => decide (c = '1')

/-- Value of the byte formed by the bits `8m .. 8m+7` of a bit sequence, the first
bit being the most significant: the sum of `b_(8m+j) * 2^(7-j)` over `j < 8`. -/
def msbByte (bits : List Bool) (m : Nat) : Nat :=
  ((List.range 8).map fun j => (bits.getD (8 * m + j) false).toNat * 2 ^ (7 - j)).sum

/-- Value of the first `r` bits of chunk `m` of a bit sequence, the first bit being the
most significant: the sum of `b_(8m+j) * 2^(r-1-j)` over `j < r`. -/
def msbPartial (bits : List Bool) (m r : Nat) : Nat :=
  ((List.range r).map fun j => (bits.getD (8 * m + j) false).toNat * 2 ^ (r - 1 - j)).sum

/-- Invariant of the loop of `array_load_file` once the bits `bits` have been accepted,
`buf0` being the buffer before the call: `pos` and `receivedbits` count the bits, the low
`receivedbits` bits of the accumulator hold the bits of the unfinished byte, the finished
bytes are stored at the indices below `pos`, which are the indices written, and the rest
of the buffer is untouched. -/
def LoadInv (buf0 : List Byte) (bits : List Bool) (st : LoadState) : Prop :=
  st.buf.length = buf0.length ∧ st.pos = bits.length / 8 ∧
  st.receivedbits = bits.length % 8 ∧
  st.byte.val % 2 ^ (bits.length % 8) = msbPartial bits (bits.length / 8) (bits.length % 8) ∧
  (∀ m, m < bits.length / 8 → ∃ b, st.buf[m]? = some b ∧ b.val = msbByte bits m) ∧
  (∀ m, bits.length / 8 ≤ m → st.buf[m]? = buf0[m]?) ∧
  st.trace = List.range (bits.length / 8)

/-- An all-zero buffer of `len` bytes. -/
def zeroBuffer (len : Nat) : List Byte := List.replicate len 0

/-- Bit `q mod 8` (counted from the least significant bit) of byte `q div 8` of the
buffer; bits beyond the end of the buffer read as `false`. -/
def bufBit (buf : List Byte) (q : Nat) : Bool :=
  (buf.getD (q / 8) 0).val.testBit (q % 8)

/-- Bit `x` of the value that `array_get` extracts for a field of width `W` that starts
at buffer bit `p`: the bit `x` of the field, or, when the field reaches the end of its
first byte at bit `8 - p mod 8`, the copy of the highest bit of that byte that the
arithmetic shift leaves at the positions `8 - p mod 8 .. 7`. -/
def getBit (buf : List Byte) (p W x : Nat) : Bool :=
  (decide (x < W) && bufBit buf (p + x)) ||
    (decide (8 - p % 8 ≤ W) && decide (8 - p % 8 ≤ x) && decide (x < 8) &&
      bufBit buf (p + (7 - p % 8)))

/-- The little-endian integer formed by the `w` bytes of the buffer from index `base` on,
each byte taken as an unsigned value. -/
def leBytes (buf : List Byte) (base w : Nat) : Nat :=
  ((List.range w).map fun t => (buf.getD (base + t) 0).val * 256 ^ t).sum

/-- Number of values that fit into one cache line: `k = floor(L*8 / W)`. -/
def perLine (W : Nat) : Nat := CL 1 * CHAR_BIT / W

/-- Bit position `p_i = (s + i div k) * L * 8 + (i mod k) * W` of the field of value
`i`, for start cache line `s` and width `W`. -/
def fieldPos (s W i : Nat) : Nat :=
  (s + i / perLine W) * (CL 1 * CHAR_BIT) + (i % perLine W) * W

/-- Number of cache lines occupied by `n` values: `ceil(n / k)`. -/
def linesNeeded (W n : Nat) : Nat := (n + perLine W - 1) / perLine W

/-- Bitwise OR of two bytes. -/
def orByte (a b : Byte) : Byte :=
  ⟨a.val ||| b.val, Nat.or_lt_two_pow (n := 8) a.isLt b.isLt⟩

/-- Byte-wise bitwise OR of two buffers. -/
def orBuffer (a b : List Byte) : List Byte := List.zipWith orByte a b

/-- Application of a function to the result of a run. -/
def Res.map {α β : Type} (f : α → β) (r : Res α) : Res β :=
  r.bind fun a => .ok (f a)


/-! ### Arithmetic of `char` and `int` -/

theorem or_mod_256 (m n : Nat) : (m ||| n) % 256 = (m % 256) ||| (n % 256) := by
  apply Nat.eq_of_testBit_eq
  intro i
  have h : (256 : Nat) = 2 ^ 8 := by norm_num
  simp only [h, Nat.testBit_mod_two_pow, Nat.testBit_or, Bool.and_or_distrib_left]

theorem intBits_schar_mod (a : Byte) : intBits (schar a) % 256 = a.val := by
  have := a.isLt
  unfold intBits schar
  split <;> omega

theorem toChar_ofIntBits (p : Nat) :
    (toChar (ofIntBits p)).val = p % 256 := by
  unfold toChar ofIntBits
  simp only
  split <;> omega

theorem toChar_int_or (a b : Byte) :
    (toChar (int_or (schar a) (schar b))).val = a.val ||| b.val := by
  unfold int_or
  rw [toChar_ofIntBits, or_mod_256, intBits_schar_mod, intBits_schar_mod]

theorem toChar_natCast (n : Nat) : (toChar (n : Int)).val = n % 256 := by
  unfold toChar
  simp only
  omega

/-- Bits of the byte that `array_put` ORs into the buffer for the chunk starting at
intra-byte offset `d`. -/
theorem put_chunk_testBit (value d j : Nat) (hd : d < 8) (hj : j < 8) :
    (toChar ((((value &&& ((1 <<< (8 - d)) - 1)) <<< d) % 2 ^ 64 : Nat) : Int)).val.testBit j
      = (decide (d ≤ j) && value.testBit (j - d)) := by
  rw [toChar_natCast]
  have h : (256 : Nat) = 2 ^ 8 := by norm_num
  rw [h, Nat.testBit_mod_two_pow, Nat.testBit_mod_two_pow, Nat.testBit_shiftLeft,
    Nat.one_shiftLeft, Nat.testBit_and, Nat.testBit_two_pow_sub_one]
  have h1 : decide (j < 8) = true := by simpa using hj
  have h2 : decide (j < 64) = true := by simp; omega
  rw [h1, h2]
  by_cases hdj : d ≤ j
  · have h3 : decide (j - d < 8 - d) = true := by simp; omega
    simp [hdj, h3]
  · simp [hdj]

/-! ### Reading the buffer bit by bit -/

theorem bufBit_set (buf : List Byte) (idx : Nat) (x : Byte) (q : Nat) (h : idx < buf.length) :
    bufBit (buf.set idx x) q = if q / 8 = idx then x.val.testBit (q % 8) else bufBit buf q := by
  unfold bufBit
  rw [List.getD_eq_getElem?_getD, List.getD_eq_getElem?_getD, List.getElem?_set]
  by_cases hq : q / 8 = idx
  · simp [hq, h]
  · have : ¬ idx = q / 8 := fun e => hq e.symm
    simp [hq, this]

theorem bufBit_eq_of_getElem (buf : List Byte) (q : Nat) (b : Byte) (h : buf[q / 8]? = some b) :
    bufBit buf q = b.val.testBit (q % 8) := by
  unfold bufBit
  rw [List.getD_eq_getElem?_getD, h]
  rfl


/-! ### The `while` loop of `array_put` -/

theorem load_ok (buf : List Byte) (idx : Nat) (h : idx < buf.length) :
    load buf idx = .ok (buf[idx]) := by
  unfold load
  rw [List.getElem?_eq_getElem h]

theorem store_ok (buf : List Byte) (idx : Nat) (b : Byte) (h : idx < buf.length) :
    store buf idx b = .ok (buf.set idx b) := by
  unfold store
  rw [if_pos h]

theorem shiftRight_lt_two_pow (value u m : Nat) (h : value < 2 ^ m) :
    value >>> u < 2 ^ (m - u) := by
  rw [Nat.shiftRight_eq_div_pow]
  by_cases hmu : m ≤ u
  · have h1 : value < 2 ^ u := lt_of_lt_of_le h (Nat.pow_le_pow_right (by norm_num) hmu)
    rw [Nat.div_eq_of_lt h1]
    exact Nat.pos_of_ne_zero (by positivity)
  · apply Nat.div_lt_of_lt_mul
    rw [← pow_add]
    have : u + (m - u) = m := by omega
    rw [this]; exact h

theorem array_put_while_spec (cl : Nat) :
    ∀ (fuel : Nat) (buf : List Byte) (value pos : Nat) (trace : List Nat) (m : Nat),
      value < 2 ^ m → m ≤ fuel → pos + m ≤ 512 → CL (cl + 1) ≤ buf.length →
      ∃ buf1 tr, array_put_while cl fuel buf value pos trace = .ok (buf1, trace ++ tr) ∧
        buf1.length = buf.length ∧
        (∀ idx ∈ tr, CL cl ≤ idx ∧ idx < CL (cl + 1)) ∧
        (∀ j, (j < CL cl ∨ CL (cl + 1) ≤ j) → buf1[j]? = buf[j]?) ∧
        (∀ q, bufBit buf1 q = true ↔
          (bufBit buf q = true ∨
            (CL cl * 8 + pos ≤ q ∧ value.testBit (q - (CL cl * 8 + pos)) = true))) := by
  intro fuel
  induction fuel with
  | zero =>
    intro buf value pos trace m hv hm hp hlen
    have hm0 : m = 0 := by omega
    subst hm0
    have hv0 : value = 0 := by simpa using hv
    subst hv0
    exact ⟨buf, [], by simp [array_put_while], rfl, by simp, by simp, by simp⟩
  | succ fuel ih =>
    intro buf value pos trace m hv hm hp hlen
    by_cases hv0 : value = 0
    · subst hv0
      exact ⟨buf, [], by simp [array_put_while], rfl, by simp, by simp, by simp⟩
    · have hm1 : 1 ≤ m := by
        rcases Nat.eq_zero_or_pos m with h0 | h0
        · subst h0; simp at hv; exact absurd hv hv0
        · exact h0
      have hidx : CL cl + pos / 8 < buf.length := by
        unfold CL at *; omega
      have hd : pos % 8 < 8 := Nat.mod_lt _ (by norm_num)
      obtain ⟨buf2, tr2, hrun, hlen2, htr2, hframe2, hbits2⟩ :=
        ih (buf.set (CL cl + pos / 8)
              (toChar (int_or (schar buf[CL cl + pos / 8])
                (schar (toChar ((((value &&& ((1 <<< (8 - pos % 8)) - 1)) <<< (pos % 8)) % 2 ^ 64 : Nat) : Int))))))
          (value >>> (8 - pos % 8)) (pos + (8 - pos % 8)) (trace ++ [CL cl + pos / 8])
          (m - (8 - pos % 8)) (shiftRight_lt_two_pow _ _ _ hv) (by omega) (by omega)
          (by rw [List.length_set]; exact hlen)
      refine ⟨buf2, (CL cl + pos / 8) :: tr2, ?_, ?_, ?_, ?_, ?_⟩
      · rw [array_put_while]
        simp only [CHAR_BIT]
        rw [if_pos (Nat.pos_of_ne_zero hv0), load_ok _ _ hidx]
        simp only [Res.bind]
        rw [store_ok _ _ _ hidx]
        simp only [Res.bind]
        rw [hrun]
        simp
      · rw [hlen2, List.length_set]
      · intro idx hmem
        rcases List.mem_cons.mp hmem with h | h
        · subst h; unfold CL; omega
        · exact htr2 idx h
      · intro j hj
        rw [hframe2 j hj, List.getElem?_set_ne]
        unfold CL at *; omega
      · intro q
        rw [hbits2 q, bufBit_set _ _ _ _ hidx, Nat.testBit_shiftRight]
        have hq8 : q % 8 < 8 := Nat.mod_lt _ (by norm_num)
        by_cases hq : q / 8 = CL cl + pos / 8
        · rw [if_pos hq, toChar_int_or, Nat.testBit_or, put_chunk_testBit _ _ _ hd hq8,
            bufBit_eq_of_getElem buf q buf[CL cl + pos / 8]
              (by rw [hq]; exact List.getElem?_eq_getElem hidx)]
          have e1 : ¬ (CL cl * 8 + (pos + (8 - pos % 8)) ≤ q) := by unfold CL at *; omega
          by_cases hdq : pos % 8 ≤ q % 8
          · have e2 : CL cl * 8 + pos ≤ q := by unfold CL at *; omega
            have e3 : q - (CL cl * 8 + pos) = q % 8 - pos % 8 := by unfold CL at *; omega
            simp [e1, e2, e3, hdq]
          · have e2 : ¬ (CL cl * 8 + pos ≤ q) := by unfold CL at *; omega
            simp [e1, e2, hdq]
        · rw [if_neg hq]
          by_cases hge : CL cl * 8 + pos ≤ q
          · have e1 : CL cl * 8 + (pos + (8 - pos % 8)) ≤ q := by unfold CL at *; omega
            have e3 : 8 - pos % 8 + (q - (CL cl * 8 + (pos + (8 - pos % 8))))
                = q - (CL cl * 8 + pos) := by omega
            simp [e1, hge, e3]
          · have e1 : ¬ (CL cl * 8 + (pos + (8 - pos % 8)) ≤ q) := by omega
            simp [e1, hge]

/-! ### Sufficiency of the fuel

The entry points never stop a loop for lack of fuel: a run either returns or leaves
defined behaviour. -/

theorem load_fault (buf : List Byte) (idx : Nat) (e : Fault) (h : load buf idx = .fault e) :
    e = .outOfBounds := by
  unfold load at h
  cases hb : buf[idx]? with
  | none => rw [hb] at h; injection h with h; exact h.symm
  | some b => rw [hb] at h; cases h

theorem store_fault (buf : List Byte) (idx : Nat) (b : Byte) (e : Fault)
    (h : store buf idx b = .fault e) : e = .outOfBounds := by
  unfold store at h
  split at h
  · cases h
  · injection h with h; exact h.symm

theorem array_put_while_fuel (cl : Nat) :
    ∀ (fuel : Nat) (buf : List Byte) (value pos : Nat) (trace : List Nat), value < 2 ^ fuel →
      array_put_while cl fuel buf value pos trace ≠ .fault .outOfFuel := by
  intro fuel
  induction fuel with
  | zero =>
    intro buf value pos trace hv
    have hv0 : ¬ value > 0 := by simp at hv; omega
    simp [array_put_while, hv0]
  | succ fuel ih =>
    intro buf value pos trace hv
    by_cases hv0 : value > 0
    · rw [array_put_while, if_pos hv0]
      simp only []
      cases hl : load buf (CL cl + pos / CHAR_BIT) with
      | fault e =>
        rw [load_fault _ _ _ hl]
        simp [Res.bind]
      | ok old =>
        simp only [Res.bind]
        cases hs : store buf (CL cl + pos / CHAR_BIT)
            (toChar (int_or (schar old) (schar (toChar ((((value &&&
              ((1 <<< (CHAR_BIT - pos % CHAR_BIT)) - 1)) <<< (pos % CHAR_BIT)) % 2 ^ 64 : Nat)
                : Int))))) with
        | fault e =>
          rw [store_fault _ _ _ _ hs]
          simp
        | ok buf1 =>
          simp only []
          apply ih
          have h1 := shiftRight_lt_two_pow value (CHAR_BIT - pos % CHAR_BIT) (fuel + 1) hv
          have h2 : fuel + 1 - (CHAR_BIT - pos % CHAR_BIT) ≤ fuel := by
            unfold CHAR_BIT; omega
          exact lt_of_lt_of_le h1 (Nat.pow_le_pow_right (by norm_num) h2)
    · simp [array_put_while, hv0]

theorem array_get_while_fuel (buf : List Byte) (W cl bp : Nat) :
    ∀ (fuel consumed acc : Nat) (trace : List Nat), W - consumed ≤ fuel →
      array_get_while buf W cl bp fuel consumed acc trace ≠ .fault .outOfFuel := by
  intro fuel
  induction fuel with
  | zero =>
    intro consumed acc trace hfuel
    have hc : ¬ consumed < W := by omega
    simp [array_get_while, hc]
  | succ fuel ih =>
    intro consumed acc trace hfuel
    by_cases hc : consumed < W
    · rw [array_get_while, if_pos hc]
      simp only []
      cases hl : load buf (CL cl + (bp + consumed) / CHAR_BIT) with
      | fault e =>
        rw [load_fault _ _ _ hl]
        simp [Res.bind]
      | ok b =>
        simp only [Res.bind]
        by_cases h64 : 64 ≤ consumed
        · rw [if_pos h64]
          simp
        · rw [if_neg h64]
          apply ih
          unfold CHAR_BIT
          split <;> omega
    · simp [array_get_while, hc]

theorem array_change_endian_swap_fuel (i w : Nat) :
    ∀ (fuel j : Nat) (buf : List Byte), w / 2 - j ≤ fuel →
      array_change_endian_swap i w fuel j buf ≠ .fault .outOfFuel := by
  intro fuel
  induction fuel with
  | zero =>
    intro j buf hfuel
    have hc : ¬ j < w / 2 := by omega
    simp [array_change_endian_swap, hc]
  | succ fuel ih =>
    intro j buf hfuel
    by_cases hc : j < w / 2
    · rw [array_change_endian_swap, if_pos hc]
      cases hl : load buf (i + j) with
      | fault e => rw [load_fault _ _ _ hl]; simp [Res.bind]
      | ok tmp =>
        simp only [Res.bind]
        cases hl2 : load buf (i + w - 1 - j) with
        | fault e => rw [load_fault _ _ _ hl2]; simp
        | ok other =>
          simp only []
          cases hs : store buf (i + j) other with
          | fault e => rw [store_fault _ _ _ _ hs]; simp
          | ok buf1 =>
            simp only []
            cases hs2 : store buf1 (i + w - 1 - j) tmp with
            | fault e => rw [store_fault _ _ _ _ hs2]; simp
            | ok buf2 =>
              simp only []
              exact ih _ _ (by omega)
    · simp [array_change_endian_swap, hc]

theorem array_change_endian_for_fuel (len : Nat) :
    ∀ (fuel i : Nat) (buf : List Byte), len - i ≤ fuel →
      array_change_endian_for len 64 fuel i buf ≠ .fault .outOfFuel := by
  intro fuel
  induction fuel with
  | zero =>
    intro i buf hfuel
    have hc : ¬ i < len := by omega
    simp [array_change_endian_for, hc]
  | succ fuel ih =>
    intro i buf hfuel
    by_cases hc : i < len
    · rw [array_change_endian_for, if_pos hc]
      cases hsw : array_change_endian_swap i 64 (64 / 2) 0 buf with
      | fault e =>
        simp only [Res.bind]
        intro h
        injection h with h
        rw [h] at hsw
        exact array_change_endian_swap_fuel i 64 (64 / 2) 0 buf (by omega) hsw
      | ok buf1 =>
        simp only [Res.bind]
        exact ih _ _ (by omega)
    · simp [array_change_endian_for, hc]

/-- The loops of `array_change_endian` never run out of fuel. -/
theorem array_change_endian_fuel (buf : List Byte) (len : Nat) :
    array_change_endian buf len ≠ .fault .outOfFuel :=
  array_change_endian_for_fuel len len 0 buf (by omega)

theorem array_put_body_fuel (W v : Nat) (st : PutState) :
    array_put_body W v st ≠ .fault .outOfFuel := by
  unfold array_put_body
  cases hw : array_put_while st.cacheLine 64 st.buf (v % 2 ^ 64) st.bitPosInCL st.trace with
  | fault e =>
    simp only [Res.bind]
    intro h
    injection h with h
    rw [h] at hw
    exact array_put_while_fuel _ 64 _ _ _ _ (Nat.mod_lt _ (by norm_num)) hw
  | ok r =>
    simp only [Res.bind]
    split <;> simp

/-- The loops of `array_put` never run out of fuel. -/
theorem array_put_fuel (W : Nat) :
    ∀ (vs : List Nat) (st : PutState), array_put_for W vs st ≠ .fault .outOfFuel := by
  intro vs
  induction vs with
  | nil => intro st; simp [array_put_for]
  | cons v vs ih =>
    intro st
    rw [array_put_for]
    cases hb : array_put_body W v st with
    | fault e =>
      simp only [Res.bind]
      intro h
      injection h with h
      rw [h] at hb
      exact array_put_body_fuel W v st hb
    | ok st1 =>
      simp only [Res.bind]
      exact ih st1

theorem array_get_body_fuel (buf : List Byte) (W : Nat) (st : GetState) :
    array_get_body buf W st ≠ .fault .outOfFuel := by
  unfold array_get_body
  cases hw : array_get_while buf W st.cacheLine st.bitPosInCL W 0 0 st.trace with
  | fault e =>
    simp only [Res.bind]
    intro h
    injection h with h
    rw [h] at hw
    exact array_get_while_fuel buf W _ _ W 0 0 _ (by omega) hw
  | ok r =>
    simp only [Res.bind]
    split <;> simp

/-- The loops of `array_get` never run out of fuel. -/
theorem array_get_fuel (buf : List Byte) (W : Nat) :
    ∀ (n : Nat) (st : GetState), array_get_for buf W n st ≠ .fault .outOfFuel := by
  intro n
  induction n with
  | zero => intro st; simp [array_get_for]
  | succ n ih =>
    intro st
    rw [array_get_for]
    cases hb : array_get_body buf W st with
    | fault e =>
      simp only [Res.bind]
      intro h
      injection h with h
      rw [h] at hb
      exact array_get_body_fuel buf W st hb
    | ok st1 =>
      simp only [Res.bind]
      exact ih st1

/-! ### Arithmetic of the cursor -/

theorem perLine_pos (W : Nat) (hW1 : 1 ≤ W) (hW : W ≤ 512) : 1 ≤ perLine W := by
  unfold perLine CL CHAR_BIT
  exact (Nat.one_le_div_iff (by omega)).mpr (by omega)

theorem perLine_mul_le (W : Nat) : perLine W * W ≤ 512 := by
  unfold perLine CL CHAR_BIT
  exact Nat.div_mul_le_self _ _

theorem lt_perLine_succ_mul (W : Nat) (hW1 : 1 ≤ W) : 512 < (perLine W + 1) * W := by
  unfold perLine CL CHAR_BIT
  have := Nat.lt_mul_div_succ 512 (show 0 < W by omega)
  rw [Nat.mul_comm]
  simpa using this

/-- A field never crosses the end of its cache line. -/
theorem field_fits (W i : Nat) (hW1 : 1 ≤ W) (hW : W ≤ 512) :
    (i % perLine W) * W + W ≤ 512 := by
  have hk := perLine_pos W hW1 hW
  have hj : i % perLine W + 1 ≤ perLine W := Nat.mod_lt _ (by omega)
  calc (i % perLine W) * W + W = (i % perLine W + 1) * W := by ring
    _ ≤ perLine W * W := Nat.mul_le_mul_right _ hj
    _ ≤ 512 := perLine_mul_le W

/-- The rollover test of the code, in terms of the index of the value. -/
theorem rollover_iff (W i : Nat) (hW1 : 1 ≤ W) (hW : W ≤ 512) :
    ((i % perLine W) * W + W + W > 512) ↔ i % perLine W + 1 = perLine W := by
  have hk := perLine_pos W hW1 hW
  have hj : i % perLine W < perLine W := Nat.mod_lt _ (by omega)
  constructor
  · intro h
    by_contra hne
    have h2 : i % perLine W + 2 ≤ perLine W := by omega
    have h3 : (i % perLine W + 2) * W ≤ perLine W * W := Nat.mul_le_mul_right _ h2
    have h4 := perLine_mul_le W
    have h5 : (i % perLine W + 2) * W = (i % perLine W) * W + W + W := by ring
    omega
  · intro h
    have h2 := lt_perLine_succ_mul W hW1
    rw [← h] at h2
    have h5 : (i % perLine W + 1 + 1) * W = (i % perLine W) * W + W + W := by ring
    omega

theorem succ_div_of_rollover (k i : Nat) (hk : 1 ≤ k) (h : i % k + 1 = k) :
    (i + 1) / k = i / k + 1 ∧ (i + 1) % k = 0 := by
  have h1 : i + 1 = k * (i / k + 1) := by
    have := Nat.div_add_mod i k
    rw [Nat.mul_add, Nat.mul_one]
    omega
  rw [h1]
  exact ⟨Nat.mul_div_cancel_left _ (by omega), Nat.mul_mod_right _ _⟩

theorem succ_div_of_no_rollover (k i : Nat) (hk : 1 ≤ k) (h : i % k + 1 ≠ k) :
    (i + 1) / k = i / k ∧ (i + 1) % k = i % k + 1 := by
  have hj : i % k < k := Nat.mod_lt _ (by omega)
  have h1 : i + 1 = k * (i / k) + (i % k + 1) := by
    have := Nat.div_add_mod i k
    omega
  have h2 : i % k + 1 < k := by omega
  constructor
  · conv_lhs => rw [h1]
    rw [Nat.mul_add_div (by omega), Nat.div_eq_of_lt h2, Nat.add_zero]
  · conv_lhs => rw [h1]
    rw [Nat.mul_add_mod, Nat.mod_eq_of_lt h2]

theorem line_lt_linesNeeded (W i n : Nat) (hW1 : 1 ≤ W) (hW : W ≤ 512) (h : i + 1 ≤ n) :
    i / perLine W + 1 ≤ linesNeeded W n := by
  have hk := perLine_pos W hW1 hW
  unfold linesNeeded
  have h1 : i / perLine W + 1 = (i + perLine W) / perLine W := by
    rw [Nat.add_div_right _ (by omega)]
  rw [h1]
  exact Nat.div_le_div_right (by omega)

theorem fieldPos_eq (s W i : Nat) :
    fieldPos s W i = CL (s + i / perLine W) * 8 + (i % perLine W) * W := by
  unfold fieldPos CL CHAR_BIT
  omega

/-! ### The `for` loop of `array_put` -/

/-- Effect of one iteration of the `for` loop of `array_put` on a value that fits
its width, at the cursor of the value with index `i`. -/
theorem array_put_body_spec (s W : Nat) (hW1 : 1 ≤ W) (hW : W ≤ 64) (v i : Nat)
    (buf : List Byte) (trace : List Nat) (hv : v < 2 ^ W)
    (hlen : CL (s + i / perLine W + 1) ≤ buf.length) :
    ∃ buf1 tr,
      array_put_body W v ⟨buf, s + i / perLine W, (i % perLine W) * W, trace⟩
        = .ok ⟨buf1, s + (i + 1) / perLine W, ((i + 1) % perLine W) * W, trace ++ tr⟩ ∧
      buf1.length = buf.length ∧
      (∀ idx ∈ tr, CL (s + i / perLine W) ≤ idx ∧ idx < CL (s + i / perLine W + 1)) ∧
      (∀ j, (j < CL (s + i / perLine W) ∨ CL (s + i / perLine W + 1) ≤ j) →
        buf1[j]? = buf[j]?) ∧
      (∀ q, bufBit buf1 q = true ↔
        (bufBit buf q = true ∨
          (fieldPos s W i ≤ q ∧ v.testBit (q - fieldPos s W i) = true))) := by
  have hk := perLine_pos W hW1 (by omega)
  have hfit := field_fits W i hW1 (by omega)
  have hv64 : v % 2 ^ 64 = v :=
    Nat.mod_eq_of_lt (lt_of_lt_of_le hv (Nat.pow_le_pow_right (by norm_num) hW))
  obtain ⟨buf1, tr, hrun, hlen1, htr, hframe, hbits⟩ :=
    array_put_while_spec (s + i / perLine W) 64 buf v ((i % perLine W) * W) trace W hv hW
      hfit hlen
  refine ⟨buf1, tr, ?_, hlen1, htr, hframe, ?_⟩
  · unfold array_put_body
    simp only [hv64, hrun, Res.bind, CL, CHAR_BIT]
    by_cases hroll : (i % perLine W) * W + W + W > 512
    · have hr := (rollover_iff W i hW1 (by omega)).mp hroll
      obtain ⟨e1, e2⟩ := succ_div_of_rollover (perLine W) i hk hr
      rw [if_pos (by omega), e1, e2]
      simp [Nat.add_assoc]
    · have hr : i % perLine W + 1 ≠ perLine W :=
        fun h => hroll ((rollover_iff W i hW1 (by omega)).mpr h)
      obtain ⟨e1, e2⟩ := succ_div_of_no_rollover (perLine W) i hk hr
      rw [if_neg (by omega), e1, e2]
      simp [Nat.add_mul]
  · intro q
    rw [hbits q, fieldPos_eq]

theorem array_put_for_spec (s W : Nat) (hW1 : 1 ≤ W) (hW : W ≤ 64) :
    ∀ (vs : List Nat) (i : Nat) (buf : List Byte) (trace : List Nat),
      (∀ v ∈ vs, v < 2 ^ W) →
      CL (s + linesNeeded W (i + vs.length)) ≤ buf.length →
      ∃ buf1 tr,
        array_put_for W vs ⟨buf, s + i / perLine W, (i % perLine W) * W, trace⟩
          = .ok ⟨buf1, s + (i + vs.length) / perLine W,
              ((i + vs.length) % perLine W) * W, trace ++ tr⟩ ∧
        buf1.length = buf.length ∧
        (∀ idx ∈ tr, CL (s + i / perLine W) ≤ idx ∧
          idx < CL (s + linesNeeded W (i + vs.length))) ∧
        (∀ j, (j < CL (s + i / perLine W) ∨ CL (s + linesNeeded W (i + vs.length)) ≤ j) →
          buf1[j]? = buf[j]?) ∧
        (∀ q, bufBit buf1 q = true ↔
          (bufBit buf q = true ∨
            ∃ j, j < vs.length ∧ fieldPos s W (i + j) ≤ q ∧
              (vs.getD j 0).testBit (q - fieldPos s W (i + j)) = true)) := by
  intro vs
  induction vs with
  | nil =>
    intro i buf trace _ _
    exact ⟨buf, [], by simp [array_put_for], rfl, by simp, by simp, by simp⟩
  | cons v vs ih =>
    intro i buf trace hvs hlen
    have hk := perLine_pos W hW1 (by omega)
    have hline := line_lt_linesNeeded W i (i + (v :: vs).length) hW1 (by omega)
      (by simp)
    have hlen0 : CL (s + i / perLine W + 1) ≤ buf.length := by
      unfold CL at *; omega
    obtain ⟨buf1, tr1, hrun1, hlen1, htr1, hframe1, hbits1⟩ :=
      array_put_body_spec s W hW1 hW v i buf trace (hvs v (by simp)) hlen0
    have hassoc : i + 1 + vs.length = i + (v :: vs).length := by simp; omega
    obtain ⟨buf2, tr2, hrun2, hlen2, htr2, hframe2, hbits2⟩ :=
      ih (i + 1) buf1 (trace ++ tr1) (fun x hx => hvs x (by simp [hx]))
        (by rw [hassoc, hlen1]; exact hlen)
    rw [hassoc] at hrun2 htr2 hframe2
    have hmono : i / perLine W ≤ (i + 1) / perLine W := Nat.div_le_div_right (by omega)
    refine ⟨buf2, tr1 ++ tr2, ?_, ?_, ?_, ?_, ?_⟩
    · rw [array_put_for, hrun1]
      simp only [Res.bind]
      rw [hrun2, List.append_assoc]
    · rw [hlen2, hlen1]
    · intro idx hmem
      rcases List.mem_append.mp hmem with h | h
      · have := htr1 idx h
        unfold CL at *; omega
      · have := htr2 idx h
        unfold CL at *; omega
    · intro j hj
      rw [hframe2 j (by unfold CL at *; omega), hframe1 j (by unfold CL at *; omega)]
    · intro q
      rw [hbits2 q, hbits1 q]
      constructor
      · rintro ((h | ⟨h1, h2⟩) | ⟨j, hj, h1, h2⟩)
        · exact Or.inl h
        · exact Or.inr ⟨0, by simp, by simpa using h1, by simpa using h2⟩
        · refine Or.inr ⟨j + 1, by simpa using hj, ?_, ?_⟩
          · have : i + (j + 1) = i + 1 + j := by omega
            rw [this]; exact h1
          · have : i + (j + 1) = i + 1 + j := by omega
            rw [this]; simpa using h2
      · rintro (h | ⟨j, hj, h1, h2⟩)
        · exact Or.inl (Or.inl h)
        · cases j with
          | zero => exact Or.inl (Or.inr ⟨by simpa using h1, by simpa using h2⟩)
          | succ j =>
            refine Or.inr ⟨j, by simpa using hj, ?_, ?_⟩
            · have : i + 1 + j = i + (j + 1) := by omega
              rw [this]; exact h1
            · have : i + 1 + j = i + (j + 1) := by omega
              rw [this]; simpa using h2

/-! ### Sign extension in `array_get`

`byte >>= discardBits` shifts a negative `char` arithmetically, so the upper
`discardBits` bits of the shifted byte are copies of the sign bit.  They are only
cleared in the branch `useBits > valueBitWidth - consumedBits`; otherwise
`0xff & byte` keeps them and they are ORed into the value. -/

/-- C1. Packing the 4-bit values `0, 8` into a zeroed cache line and unpacking two
4-bit values from it yields `0, 248` instead of `0, 8`. -/
theorem roundtrip_sign_extension :
    ((array_put (zeroBuffer 64) 0 [0, 8] 4).bind fun buf => array_get buf 0 2 4)
      = .ok [0, 248] := by
  decide

/-- C2. On a cache line whose first byte is `0xF0`, the second 4-bit output of
`array_get` is `255`, which is not below `2^4`. -/
theorem array_get_out_of_range :
    array_get ((240 : Byte) :: zeroBuffer 63) 0 2 4 = .ok [0, 255] ∧ ¬ (255 < 2 ^ 4) := by
  decide

/-- C3. On a cache line whose bytes are `0x00, 0x80, 0x00, ...`, the second 12-bit
output of `array_get` is `248`, whereas the bits `12 .. 23` of the buffer encode `8`. -/
theorem array_get_not_bit_field :
    array_get ((0 : Byte) :: (128 : Byte) :: zeroBuffer 62) 0 2 12 = .ok [0, 248] ∧
      ((List.range 12).map fun b =>
          (bufBit ((0 : Byte) :: (128 : Byte) :: zeroBuffer 62) (fieldPos 0 12 1 + b)).toNat
            * 2 ^ b).sum = 8 := by
  decide

/-! ### Layout of the packed fields -/

theorem testBit_lt_of_lt_two_pow (v W b : Nat) (hv : v < 2 ^ W) (h : v.testBit b = true) :
    b < W := by
  by_contra hb
  have h1 : v < 2 ^ b := lt_of_lt_of_le hv (Nat.pow_le_pow_right (by norm_num) (by omega))
  rw [Nat.testBit_lt_two_pow h1] at h
  exact Bool.false_ne_true h

theorem getD_lt_two_pow (vs : List Nat) (W j : Nat) (hvs : ∀ v ∈ vs, v < 2 ^ W) :
    vs.getD j 0 < 2 ^ W := by
  rw [List.getD_eq_getElem?_getD]
  by_cases hj : j < vs.length
  · rw [List.getElem?_eq_getElem hj]
    exact hvs _ (List.getElem_mem hj)
  · rw [List.getElem?_eq_none (by omega)]
    exact Nat.pos_of_ne_zero (by positivity)

/-- Distinct fields do not overlap. -/
theorem fieldPos_inj (s W i j b c : Nat) (hW1 : 1 ≤ W) (hW : W ≤ 512) (hb : b < W) (hc : c < W)
    (h : fieldPos s W i + b = fieldPos s W j + c) : i = j ∧ b = c := by
  have hk := perLine_pos W hW1 hW
  have hi := field_fits W i hW1 hW
  have hj := field_fits W j hW1 hW
  unfold fieldPos CL CHAR_BIT at h
  have h1 : i / perLine W = j / perLine W := by omega
  have h2 : (i % perLine W) * W + b = (j % perLine W) * W + c := by
    rw [h1] at h; omega
  have h3 : i % perLine W = j % perLine W := by
    have e := congrArg (· / W) h2
    simp only at e
    rw [Nat.add_comm, Nat.add_mul_div_right _ _ (by omega), Nat.div_eq_of_lt hb,
      Nat.add_comm ((j % perLine W) * W), Nat.add_mul_div_right _ _ (by omega),
      Nat.div_eq_of_lt hc] at e
    omega
  constructor
  · rw [← Nat.div_add_mod i (perLine W), ← Nat.div_add_mod j (perLine W), h1, h3]
  · rw [h3] at h2; omega

theorem bufBit_zeroBuffer (len q : Nat) : bufBit (zeroBuffer len) q = false := by
  unfold bufBit zeroBuffer
  rw [List.getD_eq_getElem?_getD, List.getElem?_replicate]
  split <;> simp

/-- Content of a zeroed buffer after `array_put`: a bit is set exactly when it is a
set bit of one of the values, at the position of its field. -/
theorem array_put_zero_bits (s W : Nat) (vs : List Nat) (len : Nat) (hW1 : 1 ≤ W)
    (hW : W ≤ 64) (hvs : ∀ v ∈ vs, v < 2 ^ W)
    (hlen : CL (s + linesNeeded W vs.length) ≤ len) :
    ∃ out, array_put (zeroBuffer len) s vs W = .ok out ∧ out.length = len ∧
      ∀ q, bufBit out q = true ↔
        ∃ j b, j < vs.length ∧ b < W ∧ q = fieldPos s W j + b ∧
          (vs.getD j 0).testBit b = true := by
  obtain ⟨buf1, tr, hrun, hlen1, -, -, hbits⟩ :=
    array_put_for_spec s W hW1 hW vs 0 (zeroBuffer len) [] hvs
      (by simpa [zeroBuffer] using hlen)
  refine ⟨buf1, ?_, by simpa [zeroBuffer] using hlen1, ?_⟩
  · unfold array_put array_put_init
    have e0 : (0 : Nat) / perLine W = 0 := Nat.zero_div _
    have e1 : (0 : Nat) % perLine W = 0 := Nat.zero_mod _
    rw [e0, e1] at hrun
    simp only [Nat.add_zero, Nat.zero_mul] at hrun
    rw [hrun]
    rfl
  · intro q
    rw [hbits q, bufBit_zeroBuffer]
    constructor
    · rintro (h | ⟨j, hj, h1, h2⟩)
      · exact absurd h Bool.false_ne_true
      · refine ⟨j, q - fieldPos s W (0 + j), hj, ?_, ?_, ?_⟩
        · exact testBit_lt_of_lt_two_pow _ _ _ (getD_lt_two_pow vs W j hvs) h2
        · rw [Nat.zero_add] at h1 ⊢; omega
        · exact h2
    · rintro ⟨j, b, hj, _, hq, h2⟩
      refine Or.inr ⟨j, hj, ?_, ?_⟩
      · rw [Nat.zero_add]; omega
      · rw [Nat.zero_add]
        have : q - fieldPos s W j = b := by omega
        rw [this]; exact h2

/-- C4. After `array_put` on an all-zero buffer that holds the cache lines of the
values (each below `2^W`, `1 ≤ W ≤ 64`), bit `b` of value `i` is stored at buffer bit
`p_i + b`, and every bit of the buffer outside the fields is zero. -/
theorem array_put_layout (s W : Nat) (vs : List Nat) (len : Nat) (hW1 : 1 ≤ W)
    (hW : W ≤ 64) (hvs : ∀ v ∈ vs, v < 2 ^ W)
    (hlen : CL (s + linesNeeded W vs.length) ≤ len) :
    ∃ out, array_put (zeroBuffer len) s vs W = .ok out ∧
      (∀ i b, i < vs.length → b < W →
        bufBit out (fieldPos s W i + b) = (vs.getD i 0).testBit b) ∧
      (∀ q, (¬ ∃ i b, i < vs.length ∧ b < W ∧ q = fieldPos s W i + b) →
        bufBit out q = false) := by
  obtain ⟨out, hrun, -, hbits⟩ := array_put_zero_bits s W vs len hW1 hW hvs hlen
  refine ⟨out, hrun, ?_, ?_⟩
  · intro i b hi hb
    apply Bool.eq_iff_iff.mpr
    rw [hbits]
    constructor
    · rintro ⟨j, c, _, hc, hq, h⟩
      obtain ⟨e1, e2⟩ := fieldPos_inj s W i j b c hW1 (by omega) hb hc hq
      rw [e1, e2]; exact h
    · intro h
      exact ⟨i, b, hi, hb, rfl, h⟩
  · intro q hq
    cases hbq : bufBit out q with
    | false => rfl
    | true =>
      obtain ⟨j, b, hj, hb, e, _⟩ := (hbits q).mp hbq
      exact absurd ⟨j, b, hj, hb, e⟩ hq

/-- Witness for C4: two 4-bit values packed into one zeroed cache line. -/
theorem array_put_layout_witness :
    ∃ out, array_put (zeroBuffer 64) 0 [5, 10] 4 = .ok out ∧
      (∀ i b, i < [5, 10].length → b < 4 →
        bufBit out (fieldPos 0 4 i + b) = ([5, 10].getD i 0).testBit b) ∧
      (∀ q, (¬ ∃ i b, i < [5, 10].length ∧ b < 4 ∧ q = fieldPos 0 4 i + b) →
        bufBit out q = false) :=
  array_put_layout 0 4 [5, 10] 64 (by decide) (by decide) (by decide) (by decide)

/-! ### OR semantics of `array_put` -/

theorem toChar_int_or_eq (a b : Byte) : toChar (int_or (schar a) (schar b)) = orByte a b :=
  Fin.ext (toChar_int_or a b)

theorem orByte_assoc (a b c : Byte) : orByte (orByte a b) c = orByte a (orByte b c) :=
  Fin.ext (Nat.lor_assoc _ _ _)

theorem orByte_zero (a : Byte) : orByte a 0 = a :=
  Fin.ext (Nat.or_zero _)

theorem orBuffer_length (a b : List Byte) (h : b.length = a.length) :
    (orBuffer a b).length = a.length := by
  unfold orBuffer
  rw [List.length_zipWith, h, Nat.min_self]

theorem orBuffer_getElem? (a b : List Byte) (n : Nat) :
    (orBuffer a b)[n]? = match a[n]?, b[n]? with
      | some x, some y => some (orByte x y)
      | _, _ => none := by
  unfold orBuffer
  rw [List.getElem?_zipWith]
  cases a[n]? <;> cases b[n]? <;> rfl

theorem orBuffer_set (a b : List Byte) (idx : Nat) (y : Byte) (ha : idx < a.length)
    (hb : idx < b.length) :
    (orBuffer a b).set idx (orByte a[idx] y) = orBuffer a (b.set idx y) := by
  apply List.ext_getElem?
  intro n
  rw [List.getElem?_set, orBuffer_getElem?, orBuffer_getElem?, List.getElem?_set]
  by_cases hn : idx = n
  · subst hn
    have hl : idx < (orBuffer a b).length := by
      unfold orBuffer; rw [List.length_zipWith]; omega
    simp [hl, hb, List.getElem?_eq_getElem ha]
  · simp [hn]

theorem orBuffer_zeroBuffer (a : List Byte) : orBuffer a (zeroBuffer a.length) = a := by
  apply List.ext_getElem?
  intro n
  rw [orBuffer_getElem?]
  unfold zeroBuffer
  rw [List.getElem?_replicate]
  by_cases hn : n < a.length
  · simp [hn, List.getElem?_eq_getElem hn, orByte_zero]
  · simp [hn, List.getElem?_eq_none (show a.length ≤ n by omega)]

theorem bufBit_orBuffer (a b : List Byte) (h : b.length = a.length) (q : Nat) :
    bufBit (orBuffer a b) q = (bufBit a q || bufBit b q) := by
  unfold bufBit
  rw [List.getD_eq_getElem?_getD, List.getD_eq_getElem?_getD, List.getD_eq_getElem?_getD,
    orBuffer_getElem?]
  by_cases hn : q / 8 < a.length
  · rw [List.getElem?_eq_getElem hn, List.getElem?_eq_getElem (show q / 8 < b.length by omega)]
    simp [orByte, Nat.testBit_or]
  · rw [List.getElem?_eq_none (show a.length ≤ q / 8 by omega),
      List.getElem?_eq_none (show b.length ≤ q / 8 by omega)]
    simp

/-- The `while` loop of `array_put` commutes with OR-ing a fixed buffer onto the
buffer it works on. -/
theorem array_put_while_or (base : List Byte) (cl : Nat) :
    ∀ (fuel : Nat) (buf : List Byte) (value pos : Nat) (trace : List Nat),
      buf.length = base.length →
      array_put_while cl fuel (orBuffer base buf) value pos trace
        = (array_put_while cl fuel buf value pos trace).map
            fun r => (orBuffer base r.1, r.2) := by
  intro fuel
  induction fuel with
  | zero =>
    intro buf value pos trace _
    by_cases hv : value > 0 <;> simp [array_put_while, hv, Res.map, Res.bind]
  | succ fuel ih =>
    intro buf value pos trace hlen
    by_cases hv : value > 0
    · rw [array_put_while, array_put_while, if_pos hv, if_pos hv]
      simp only []
      by_cases hidx : CL cl + pos / CHAR_BIT < buf.length
      · have hidx1 : CL cl + pos / CHAR_BIT < (orBuffer base buf).length := by
          rw [orBuffer_length _ _ hlen]; omega
        have hidx2 : CL cl + pos / CHAR_BIT < base.length := by omega
        rw [load_ok _ _ hidx1, load_ok _ _ hidx]
        simp only [Res.bind]
        rw [store_ok _ _ _ hidx1, store_ok _ _ _ hidx]
        simp only [Res.bind]
        have hget : (orBuffer base buf)[CL cl + pos / CHAR_BIT]
            = orByte base[CL cl + pos / CHAR_BIT] buf[CL cl + pos / CHAR_BIT] := by
          have h := orBuffer_getElem? base buf (CL cl + pos / CHAR_BIT)
          rw [List.getElem?_eq_getElem hidx1, List.getElem?_eq_getElem hidx2,
            List.getElem?_eq_getElem hidx] at h
          exact Option.some.inj h
        rw [hget, toChar_int_or_eq, toChar_int_or_eq, orByte_assoc,
          orBuffer_set _ _ _ _ hidx2 hidx]
        exact ih _ _ _ _ (by rw [List.length_set]; exact hlen)
      · have hidx1 : ¬ CL cl + pos / CHAR_BIT < (orBuffer base buf).length := by
          rw [orBuffer_length _ _ hlen]; omega
        have e1 : load (orBuffer base buf) (CL cl + pos / CHAR_BIT) = .fault .outOfBounds := by
          unfold load
          rw [List.getElem?_eq_none (by omega)]
        have e2 : load buf (CL cl + pos / CHAR_BIT) = .fault .outOfBounds := by
          unfold load
          rw [List.getElem?_eq_none (by omega)]
        rw [e1, e2]
        rfl
    · simp [array_put_while, hv, Res.map, Res.bind]

theorem array_put_while_length (cl : Nat) :
    ∀ (fuel : Nat) (buf : List Byte) (value pos : Nat) (trace : List Nat)
      (r : List Byte × List Nat),
      array_put_while cl fuel buf value pos trace = .ok r → r.1.length = buf.length := by
  intro fuel
  induction fuel with
  | zero =>
    intro buf value pos trace r h
    by_cases hv : value > 0
    · simp [array_put_while, hv] at h
    · simp [array_put_while, hv] at h
      rw [← h]
  | succ fuel ih =>
    intro buf value pos trace r h
    by_cases hv : value > 0
    · rw [array_put_while, if_pos hv] at h
      simp only [] at h
      by_cases hidx : CL cl + pos / CHAR_BIT < buf.length
      · rw [load_ok _ _ hidx] at h
        simp only [Res.bind] at h
        rw [store_ok _ _ _ hidx] at h
        simp only [Res.bind] at h
        rw [ih _ _ _ _ _ h, List.length_set]
      · have e2 : load buf (CL cl + pos / CHAR_BIT) = .fault .outOfBounds := by
          unfold load
          rw [List.getElem?_eq_none (by omega)]
        rw [e2] at h
        simp [Res.bind] at h
    · simp [array_put_while, hv] at h
      rw [← h]

theorem array_put_body_or (base : List Byte) (W v : Nat) (buf : List Byte)
    (cl bp : Nat) (trace : List Nat) (hlen : buf.length = base.length) :
    array_put_body W v ⟨orBuffer base buf, cl, bp, trace⟩
      = (array_put_body W v ⟨buf, cl, bp, trace⟩).map
          fun st => ⟨orBuffer base st.buf, st.cacheLine, st.bitPosInCL, st.trace⟩ := by
  unfold array_put_body
  simp only []
  rw [array_put_while_or base cl 64 buf _ _ _ hlen]
  cases array_put_while cl 64 buf (v % 2 ^ 64) bp trace with
  | fault e => rfl
  | ok r =>
    simp only [Res.map, Res.bind]
    split <;> rfl

theorem array_put_body_length (W v : Nat) (st st1 : PutState)
    (h : array_put_body W v st = .ok st1) : st1.buf.length = st.buf.length := by
  unfold array_put_body at h
  cases hw : array_put_while st.cacheLine 64 st.buf (v % 2 ^ 64) st.bitPosInCL st.trace with
  | fault e => rw [hw] at h; simp [Res.bind] at h
  | ok r =>
    have hl := array_put_while_length _ _ _ _ _ _ _ hw
    rw [hw] at h
    simp only [Res.bind] at h
    split at h
    · injection h with h; rw [← h]; exact hl
    · injection h with h; rw [← h]; exact hl

theorem array_put_for_length (W : Nat) :
    ∀ (vs : List Nat) (st st1 : PutState),
      array_put_for W vs st = .ok st1 → st1.buf.length = st.buf.length := by
  intro vs
  induction vs with
  | nil =>
    intro st st1 h
    simp [array_put_for] at h
    rw [← h]
  | cons v vs ih =>
    intro st st1 h
    rw [array_put_for] at h
    cases hb : array_put_body W v st with
    | fault e => rw [hb] at h; simp [Res.bind] at h
    | ok st2 =>
      rw [hb] at h
      simp only [Res.bind] at h
      rw [ih _ _ h, array_put_body_length _ _ _ _ hb]

theorem array_put_for_or (base : List Byte) (W : Nat) :
    ∀ (vs : List Nat) (buf : List Byte) (cl bp : Nat) (trace : List Nat),
      buf.length = base.length →
      array_put_for W vs ⟨orBuffer base buf, cl, bp, trace⟩
        = (array_put_for W vs ⟨buf, cl, bp, trace⟩).map
            fun st => ⟨orBuffer base st.buf, st.cacheLine, st.bitPosInCL, st.trace⟩ := by
  intro vs
  induction vs with
  | nil =>
    intro buf cl bp trace _
    rfl
  | cons v vs ih =>
    intro buf cl bp trace hlen
    rw [array_put_for, array_put_for, array_put_body_or base W v buf cl bp trace hlen]
    cases hb : array_put_body W v ⟨buf, cl, bp, trace⟩ with
    | fault e => rfl
    | ok st2 =>
      have hl : st2.buf.length = base.length := by
        rw [array_put_body_length _ _ _ _ hb]; exact hlen
      simp only [Res.map, Res.bind]
      exact ih st2.buf st2.cacheLine st2.bitPosInCL st2.trace hl

theorem array_put_or (B : List Byte) (s : Nat) (vs : List Nat) (W : Nat) :
    array_put B s vs W = (array_put (zeroBuffer B.length) s vs W).map (orBuffer B) := by
  unfold array_put array_put_init
  have h := array_put_for_or B W vs (zeroBuffer B.length) s 0 []
    (by simp [zeroBuffer])
  rw [orBuffer_zeroBuffer] at h
  rw [h]
  cases array_put_for W vs ⟨zeroBuffer B.length, s, 0, []⟩ with
  | fault e => rfl
  | ok st => rfl

theorem array_put_length (B : List Byte) (s : Nat) (vs : List Nat) (W : Nat) (out : List Byte)
    (h : array_put B s vs W = .ok out) : out.length = B.length := by
  unfold array_put at h
  cases hf : array_put_for W vs (array_put_init B s) with
  | fault e => rw [hf] at h; simp [Res.bind] at h
  | ok st =>
    rw [hf] at h
    simp only [Res.bind] at h
    injection h with h
    rw [← h]
    exact array_put_for_length W vs _ _ hf

theorem array_put_while_zero (cl fuel : Nat) (buf : List Byte) (pos : Nat) (trace : List Nat) :
    array_put_while cl fuel buf 0 pos trace = .ok (buf, trace) := by
  cases fuel <;> simp [array_put_while]

theorem array_put_for_zeros (W : Nat) :
    ∀ (n : Nat) (st : PutState),
      ∃ cl bp, array_put_for W (List.replicate n 0) st = .ok ⟨st.buf, cl, bp, st.trace⟩ := by
  intro n
  induction n with
  | zero =>
    intro st
    exact ⟨st.cacheLine, st.bitPosInCL, rfl⟩
  | succ n ih =>
    intro st
    rw [List.replicate_succ, array_put_for]
    have hb : ∃ cl bp, array_put_body W 0 st = .ok ⟨st.buf, cl, bp, st.trace⟩ := by
      unfold array_put_body
      rw [Nat.zero_mod, array_put_while_zero]
      simp only [Res.bind]
      split
      · exact ⟨_, _, rfl⟩
      · exact ⟨_, _, rfl⟩
    obtain ⟨cl, bp, hb⟩ := hb
    rw [hb]
    simp only [Res.bind]
    exact ih _

/-- C5. `array_put` has OR semantics: on any buffer `B` the call behaves like the same
call on a zeroed buffer of the same length followed by a byte-wise OR with `B`; hence
no bit set in `B` is cleared, and packing zeros leaves `B` unchanged. -/
theorem array_put_or_semantics (B : List Byte) (s : Nat) (vs : List Nat) (W : Nat) :
    array_put B s vs W = (array_put (zeroBuffer B.length) s vs W).map (orBuffer B) ∧
    (∀ out, array_put B s vs W = .ok out →
      ∀ q, bufBit B q = true → bufBit out q = true) ∧
    (∀ n, array_put B s (List.replicate n 0) W = .ok B) := by
  refine ⟨array_put_or B s vs W, ?_, ?_⟩
  · intro out hout q hq
    rw [array_put_or] at hout
    cases hz : array_put (zeroBuffer B.length) s vs W with
    | fault e => rw [hz] at hout; simp [Res.map, Res.bind] at hout
    | ok z =>
      rw [hz] at hout
      simp only [Res.map, Res.bind] at hout
      injection hout with hout
      have hl : z.length = B.length := by
        rw [array_put_length _ _ _ _ _ hz]; simp [zeroBuffer]
      rw [← hout, bufBit_orBuffer _ _ hl, hq]
      rfl
  · intro n
    unfold array_put
    obtain ⟨cl, bp, h⟩ := array_put_for_zeros W n (array_put_init B s)
    rw [h]
    rfl

/-! ### Cache-line rollover -/

theorem field_fits_line (W i : Nat) (hW1 : 1 ≤ W) (hW : W ≤ 512) :
    (i % perLine W) * W + W ≤ perLine W * W := by
  have hk := perLine_pos W hW1 hW
  have hj : i % perLine W + 1 ≤ perLine W := Nat.mod_lt _ (by omega)
  calc (i % perLine W) * W + W = (i % perLine W + 1) * W := by ring
    _ ≤ perLine W * W := Nat.mul_le_mul_right _ hj

theorem linesNeeded_mono (W m n : Nat) (h : m ≤ n) : linesNeeded W m ≤ linesNeeded W n := by
  unfold linesNeeded
  exact Nat.div_le_div_right (by omega)

theorem pred_div_of_mod_eq_zero (k i : Nat) (hk : 1 ≤ k) (hi : 0 < i) (h : i % k = 0) :
    i / k = (i - 1) / k + 1 := by
  have h1 : (i - 1) % k + 1 = k := by
    by_contra hne
    have h2 := (succ_div_of_no_rollover k (i - 1) hk hne).2
    have h3 : i - 1 + 1 = i := by omega
    rw [h3, h] at h2
    omega
  have h2 := (succ_div_of_rollover k (i - 1) hk h1).1
  have h3 : i - 1 + 1 = i := by omega
  rw [h3] at h2
  exact h2

/-- C6, as amended. When `array_put` packs values of width `W` (each below `2^W`) into a
zeroed buffer that holds their cache lines, every value whose index `i > 0` is a
multiple of `k = floor(L*8 / W)` starts at bit 0 of the cache line after the one of
value `i - 1`, and the bits `k*W .. L*8 - 1` of that prior cache line remain zero. -/
theorem array_put_rollover (s W : Nat) (vs : List Nat) (len i : Nat) (hW1 : 1 ≤ W)
    (hW : W ≤ 64) (hvs : ∀ v ∈ vs, v < 2 ^ W)
    (hlen : CL (s + linesNeeded W vs.length) ≤ len)
    (hi0 : 0 < i) (hi : i < vs.length) (hroll : i % perLine W = 0) :
    (∃ st, array_put_for W (vs.take i) (array_put_init (zeroBuffer len) s) = .ok st ∧
      st.cacheLine = s + (i - 1) / perLine W + 1 ∧ st.bitPosInCL = 0) ∧
    (∃ out, array_put (zeroBuffer len) s vs W = .ok out ∧
      ∀ r, perLine W * W ≤ r → r < CL 1 * CHAR_BIT →
        bufBit out ((s + (i - 1) / perLine W) * (CL 1 * CHAR_BIT) + r) = false) := by
  have hk := perLine_pos W hW1 (by omega)
  constructor
  · have htake : (vs.take i).length = i := by
      rw [List.length_take]; omega
    obtain ⟨buf1, tr, hrun, -, -, -, -⟩ :=
      array_put_for_spec s W hW1 hW (vs.take i) 0 (zeroBuffer len) []
        (fun v hv => hvs v (List.mem_of_mem_take hv))
        (by
          have := linesNeeded_mono W (0 + (vs.take i).length) vs.length (by omega)
          have hl : (zeroBuffer len).length = len := by simp [zeroBuffer]
          unfold CL at *; omega)
    have e0 : (0 : Nat) / perLine W = 0 := Nat.zero_div _
    have e1 : (0 : Nat) % perLine W = 0 := Nat.zero_mod _
    rw [htake, e0, e1, Nat.zero_add, hroll] at hrun
    simp only [Nat.add_zero, Nat.zero_mul] at hrun
    refine ⟨_, hrun, ?_, rfl⟩
    simp only []
    rw [pred_div_of_mod_eq_zero (perLine W) i hk hi0 hroll]
    omega
  · obtain ⟨out, hrun, -, hbits⟩ := array_put_zero_bits s W vs len hW1 hW hvs hlen
    refine ⟨out, hrun, ?_⟩
    intro r hr1 hr2
    cases hbq : bufBit out ((s + (i - 1) / perLine W) * (CL 1 * CHAR_BIT) + r) with
    | false => rfl
    | true =>
      exfalso
      obtain ⟨j, b, -, hb, e, -⟩ := (hbits _).mp hbq
      have hfit := field_fits_line W j hW1 (by omega)
      have h512 := perLine_mul_le W
      unfold fieldPos CL CHAR_BIT at *
      omega

/-- Witness for C6 as amended: sixteen 60-bit values occupy two cache lines, value 8
starts the second one. -/
theorem array_put_rollover_witness :
    (∃ st, array_put_for 60 ((List.replicate 16 1).take 8)
        (array_put_init (zeroBuffer 128) 0) = .ok st ∧
      st.cacheLine = 0 + (8 - 1) / perLine 60 + 1 ∧ st.bitPosInCL = 0) ∧
    (∃ out, array_put (zeroBuffer 128) 0 (List.replicate 16 1) 60 = .ok out ∧
      ∀ r, perLine 60 * 60 ≤ r → r < CL 1 * CHAR_BIT →
        bufBit out ((0 + (8 - 1) / perLine 60) * (CL 1 * CHAR_BIT) + r) = false) :=
  array_put_rollover 0 60 (List.replicate 16 1) 128 8 (by decide) (by decide) (by decide)
    (by decide) (by decide) (by decide) (by decide)

set_option maxRecDepth 1000000 in
/-- C6, counterexample. With `W = 63` and 66 values equal to 1 in a zeroed buffer of
nine cache lines, index `i = 65` satisfies `(i * W) mod (L*8) + W > L*8`, yet
`array_put` begins value 65 at bit 63 of cache line 8 (the line of value 64), and bit
63 of that line is set in the result. -/
theorem array_put_rollover_counterexample :
    (65 * 63) % (CL 1 * CHAR_BIT) + 63 > CL 1 * CHAR_BIT ∧
    (array_put_for 63 ((List.replicate 66 1).take 64) (array_put_init (zeroBuffer 576) 0)).map
        (fun st => (st.cacheLine, st.bitPosInCL)) = .ok (8, 0) ∧
    (array_put_for 63 ((List.replicate 66 1).take 65) (array_put_init (zeroBuffer 576) 0)).map
        (fun st => (st.cacheLine, st.bitPosInCL)) = .ok (8, 63) ∧
    (array_put (zeroBuffer 576) 0 (List.replicate 66 1) 63).map
        (fun out => bufBit out (8 * (CL 1 * CHAR_BIT) + 63)) = .ok true := by
  decide

/-! ### The cursor of the two `for` loops -/

/-- The cursor update of lines 242-247 and 272-277, at the cursor of the value with
index `i`, yields the cursor of the value with index `i + 1`. -/
theorem cursor_step (s W i : Nat) (hW1 : 1 ≤ W) (hW : W ≤ 512) :
    (if (i % perLine W) * W + W + W > CL 1 * CHAR_BIT then
        (s + i / perLine W + 1 = s + (i + 1) / perLine W ∧ 0 = ((i + 1) % perLine W) * W)
      else
        (s + i / perLine W = s + (i + 1) / perLine W ∧
          (i % perLine W) * W + W = ((i + 1) % perLine W) * W)) := by
  have hk := perLine_pos W hW1 hW
  have h512 : CL 1 * CHAR_BIT = 512 := rfl
  rw [h512]
  by_cases hroll : (i % perLine W) * W + W + W > 512
  · have hr := (rollover_iff W i hW1 hW).mp hroll
    obtain ⟨e1, e2⟩ := succ_div_of_rollover (perLine W) i hk hr
    rw [if_pos hroll, e1, e2]
    exact ⟨by omega, by simp⟩
  · have hr : i % perLine W + 1 ≠ perLine W :=
      fun h => hroll ((rollover_iff W i hW1 hW).mpr h)
    obtain ⟨e1, e2⟩ := succ_div_of_no_rollover (perLine W) i hk hr
    rw [if_neg hroll, e1, e2]
    exact ⟨rfl, by ring⟩

theorem array_get_body_cursor (buf : List Byte) (s W i : Nat) (hW1 : 1 ≤ W) (hW : W ≤ 512)
    (st st1 : GetState) (hcl : st.cacheLine = s + i / perLine W)
    (hbp : st.bitPosInCL = (i % perLine W) * W) (h : array_get_body buf W st = .ok st1) :
    st1.cacheLine = s + (i + 1) / perLine W ∧ st1.bitPosInCL = ((i + 1) % perLine W) * W := by
  have hstep := cursor_step s W i hW1 hW
  unfold array_get_body at h
  cases hw : array_get_while buf W st.cacheLine st.bitPosInCL W 0 0 st.trace with
  | fault e => rw [hw] at h; simp [Res.bind] at h
  | ok r =>
    rw [hw] at h
    simp only [Res.bind, hcl, hbp] at h
    by_cases hroll : (i % perLine W) * W + W + W > CL 1 * CHAR_BIT
    · rw [if_pos hroll] at h hstep
      injection h with h
      rw [← h]
      exact hstep
    · rw [if_neg hroll] at h hstep
      injection h with h
      rw [← h]
      exact hstep

theorem array_get_while_ok (buf : List Byte) (W cl bp : Nat) (hW : W ≤ 64)
    (hfit : bp + W ≤ 512) (hlen : CL (cl + 1) ≤ buf.length) :
    ∀ (fuel consumed acc : Nat) (trace : List Nat), W - consumed ≤ fuel →
      ∃ v tr, array_get_while buf W cl bp fuel consumed acc trace = .ok (v, trace ++ tr) ∧
        ∀ idx ∈ tr, CL cl ≤ idx ∧ idx < CL (cl + 1) := by
  intro fuel
  induction fuel with
  | zero =>
    intro consumed acc trace hfuel
    have hc : ¬ consumed < W := by omega
    exact ⟨acc, [], by simp [array_get_while, hc], by simp⟩
  | succ fuel ih =>
    intro consumed acc trace hfuel
    by_cases hc : consumed < W
    · have hidx : CL cl + (bp + consumed) / 8 < buf.length := by
        unfold CL at *; omega
      have h64 : ¬ 64 ≤ consumed := by omega
      rw [array_get_while, if_pos hc]
      simp only [CHAR_BIT]
      rw [load_ok _ _ hidx]
      simp only [Res.bind]
      rw [if_neg h64]
      by_cases hm : 8 - (bp + consumed) % 8 > W - consumed
      · obtain ⟨v, tr, hrun, htr⟩ := ih (consumed + (W - consumed))
          ((acc ||| ((int_and 0xff (schar (toChar (int_and
            (schar (toChar (schar buf[CL cl + (bp + consumed) / 8] >>> ((bp + consumed) % 8))))
            (((1 <<< (W - consumed) : Nat) : Int) - 1))))).toNat <<< consumed)) % 2 ^ 64)
          (trace ++ [CL cl + (bp + consumed) / 8]) (by omega)
        refine ⟨v, (CL cl + (bp + consumed) / 8) :: tr, ?_, ?_⟩
        · simp only [hm, if_true, decide_True]
          rw [hrun]
          simp
        · intro idx hmem
          rcases List.mem_cons.mp hmem with h | h
          · subst h; unfold CL; omega
          · exact htr idx h
      · obtain ⟨v, tr, hrun, htr⟩ := ih (consumed + (8 - (bp + consumed) % 8))
          ((acc ||| ((int_and 0xff (schar
            (toChar (schar buf[CL cl + (bp + consumed) / 8] >>> ((bp + consumed) % 8))))).toNat
              <<< consumed)) % 2 ^ 64)
          (trace ++ [CL cl + (bp + consumed) / 8]) (by omega)
        refine ⟨v, (CL cl + (bp + consumed) / 8) :: tr, ?_, ?_⟩
        · simp only [hm, if_false, decide_False]
          rw [hrun]
          simp
        · intro idx hmem
          rcases List.mem_cons.mp hmem with h | h
          · subst h; unfold CL; omega
          · exact htr idx h
    · exact ⟨acc, [], by simp [array_get_while, hc], by simp⟩

theorem array_get_body_ok (buf : List Byte) (s W i : Nat) (hW1 : 1 ≤ W) (hW : W ≤ 64)
    (values : List Nat) (trace : List Nat)
    (hlen : CL (s + i / perLine W + 1) ≤ buf.length) :
    ∃ v tr,
      array_get_body buf W ⟨s + i / perLine W, (i % perLine W) * W, values, trace⟩
        = .ok ⟨s + (i + 1) / perLine W, ((i + 1) % perLine W) * W, values ++ [v],
            trace ++ tr⟩ ∧
      (∀ idx ∈ tr, CL (s + i / perLine W) ≤ idx ∧ idx < CL (s + i / perLine W + 1)) := by
  have hfit := field_fits W i hW1 (by omega)
  obtain ⟨v, tr, hrun, htr⟩ :=
    array_get_while_ok buf W (s + i / perLine W) ((i % perLine W) * W) hW hfit hlen W 0 0
      trace (by omega)
  have hstep := cursor_step s W i hW1 (by omega)
  refine ⟨v, tr, ?_, htr⟩
  unfold array_get_body
  simp only [hrun, Res.bind]
  by_cases hroll : (i % perLine W) * W + W + W > CL 1 * CHAR_BIT
  · rw [if_pos hroll] at hstep ⊢
    rw [← hstep.1, ← hstep.2]
  · rw [if_neg hroll] at hstep ⊢
    rw [← hstep.1, ← hstep.2]

theorem array_get_for_ok (buf : List Byte) (s W : Nat) (hW1 : 1 ≤ W) (hW : W ≤ 64) :
    ∀ (n i : Nat) (values : List Nat) (trace : List Nat),
      CL (s + linesNeeded W (i + n)) ≤ buf.length →
      ∃ vals tr,
        array_get_for buf W n ⟨s + i / perLine W, (i % perLine W) * W, values, trace⟩
          = .ok ⟨s + (i + n) / perLine W, ((i + n) % perLine W) * W, values ++ vals,
              trace ++ tr⟩ ∧
        vals.length = n ∧
        (∀ idx ∈ tr, CL (s + i / perLine W) ≤ idx ∧ idx < CL (s + linesNeeded W (i + n))) := by
  intro n
  induction n with
  | zero =>
    intro i values trace _
    exact ⟨[], [], by simp [array_get_for], rfl, by simp⟩
  | succ n ih =>
    intro i values trace hlen
    have hline := line_lt_linesNeeded W i (i + (n + 1)) hW1 (by omega) (by omega)
    have hlen0 : CL (s + i / perLine W + 1) ≤ buf.length := by
      unfold CL at *; omega
    obtain ⟨v, tr1, hrun1, htr1⟩ := array_get_body_ok buf s W i hW1 hW values trace hlen0
    have hassoc : i + 1 + n = i + (n + 1) := by omega
    obtain ⟨vals, tr2, hrun2, hlen2, htr2⟩ :=
      ih (i + 1) (values ++ [v]) (trace ++ tr1) (by rw [hassoc]; exact hlen)
    rw [hassoc] at hrun2 htr2
    have hmono : i / perLine W ≤ (i + 1) / perLine W := Nat.div_le_div_right (by omega)
    refine ⟨v :: vals, tr1 ++ tr2, ?_, by simp [hlen2], ?_⟩
    · rw [array_get_for, hrun1]
      simp only [Res.bind]
      rw [hrun2]
      simp
    · intro idx hmem
      rcases List.mem_append.mp hmem with h | h
      · have := htr1 idx h
        unfold CL at *; omega
      · have := htr2 idx h
        unfold CL at *; omega

/-- C8. For `1 ≤ W ≤ 64` and a buffer of at least `(s + ceil(n / k)) * L` bytes, both
`array_get` of `n` values and `array_put` of `n` values below `2^W` return without
fault, every byte index they access lies in `[s*L, (s + ceil(n / k)) * L)`, and
`array_put` leaves every byte outside that range unchanged. -/
theorem codec_in_bounds (buf : List Byte) (s W : Nat) (vs : List Nat) (hW1 : 1 ≤ W)
    (hW : W ≤ 64) (hvs : ∀ v ∈ vs, v < 2 ^ W)
    (hlen : CL (s + linesNeeded W vs.length) ≤ buf.length) :
    (∃ g, array_get_for buf W vs.length (array_get_init s) = .ok g ∧
      array_get buf s vs.length W = .ok g.values ∧ g.values.length = vs.length ∧
      ∀ idx ∈ g.trace, CL s ≤ idx ∧ idx < CL (s + linesNeeded W vs.length)) ∧
    (∃ p, array_put_for W vs (array_put_init buf s) = .ok p ∧
      array_put buf s vs W = .ok p.buf ∧
      (∀ idx ∈ p.trace, CL s ≤ idx ∧ idx < CL (s + linesNeeded W vs.length)) ∧
      (∀ j, (j < CL s ∨ CL (s + linesNeeded W vs.length) ≤ j) → p.buf[j]? = buf[j]?)) := by
  have e0 : (0 : Nat) / perLine W = 0 := Nat.zero_div _
  have e1 : (0 : Nat) % perLine W = 0 := Nat.zero_mod _
  constructor
  · obtain ⟨vals, tr, hrun, hl, htr⟩ :=
      array_get_for_ok buf s W hW1 hW vs.length 0 [] [] (by simpa using hlen)
    rw [e0, e1] at hrun
    rw [e0] at htr
    simp only [Nat.add_zero, Nat.zero_mul, Nat.zero_add, List.nil_append] at hrun htr
    refine ⟨_, hrun, ?_, hl, htr⟩
    unfold array_get array_get_init
    rw [hrun]
    rfl
  · obtain ⟨buf1, tr, hrun, -, htr, hframe, -⟩ :=
      array_put_for_spec s W hW1 hW vs 0 buf [] hvs (by simpa using hlen)
    rw [e0, e1] at hrun
    rw [e0] at htr hframe
    simp only [Nat.add_zero, Nat.zero_mul, Nat.zero_add, List.nil_append] at hrun htr hframe
    refine ⟨_, hrun, ?_, htr, hframe⟩
    unfold array_put array_put_init
    rw [hrun]
    rfl

set_option maxRecDepth 100000 in
/-- Witness for C8: three 24-bit values in cache line 1 of a buffer of two lines. -/
theorem codec_in_bounds_witness :
    (∃ g, array_get_for (zeroBuffer 128) 24 [1, 2, 3].length (array_get_init 1) = .ok g ∧
      array_get (zeroBuffer 128) 1 [1, 2, 3].length 24 = .ok g.values ∧
      g.values.length = [1, 2, 3].length ∧
      ∀ idx ∈ g.trace, CL 1 ≤ idx ∧ idx < CL (1 + linesNeeded 24 [1, 2, 3].length)) ∧
    (∃ p, array_put_for 24 [1, 2, 3] (array_put_init (zeroBuffer 128) 1) = .ok p ∧
      array_put (zeroBuffer 128) 1 [1, 2, 3] 24 = .ok p.buf ∧
      (∀ idx ∈ p.trace, CL 1 ≤ idx ∧ idx < CL (1 + linesNeeded 24 [1, 2, 3].length)) ∧
      (∀ j, (j < CL 1 ∨ CL (1 + linesNeeded 24 [1, 2, 3].length) ≤ j) →
        p.buf[j]? = (zeroBuffer 128)[j]?)) :=
  codec_in_bounds (zeroBuffer 128) 1 24 [1, 2, 3] (by decide) (by decide) (by decide)
    (by decide)

/-! ### The cursor invariant -/

/-- The inner loop of `array_change_endian`, started at `j`, mirrors the part of the
chunk `[i, i + w)` that lies between its `j`-th and its `j`-th last byte. -/
theorem array_change_endian_swap_spec (i w : Nat) :
    ∀ (fuel j : Nat) (buf : List Byte), j ≤ w / 2 → w / 2 - j ≤ fuel → i + w ≤ buf.length →
      ∃ out, array_change_endian_swap i w fuel j buf = .ok out ∧ out.length = buf.length ∧
        ∀ t, out[t]? =
          if i + j ≤ t ∧ t < i + w - j then buf[i + w - 1 - (t - i)]? else buf[t]? := by
  intro fuel
  induction fuel with
  | zero =>
    intro j buf hj hfuel hlen
    have hc : ¬ j < w / 2 := by omega
    refine ⟨buf, by simp [array_change_endian_swap, hc], rfl, ?_⟩
    intro t
    split
    · have : i + w - 1 - (t - i) = t := by omega
      rw [this]
    · rfl
  | succ fuel ih =>
    intro j buf hj hfuel hlen
    by_cases hc : j < w / 2
    · have ha : i + j < buf.length := by omega
      have hb : i + w - 1 - j < buf.length := by omega
      have hb1 : i + w - 1 - j < (buf.set (i + j) buf[i + w - 1 - j]).length := by
        rw [List.length_set]; exact hb
      obtain ⟨out, hrun, hlen1, hspec⟩ :=
        ih (j + 1) ((buf.set (i + j) buf[i + w - 1 - j]).set (i + w - 1 - j) buf[i + j])
          (by omega) (by omega) (by rw [List.length_set, List.length_set]; exact hlen)
      refine ⟨out, ?_, by rw [hlen1, List.length_set, List.length_set], ?_⟩
      · rw [array_change_endian_swap, if_pos hc, load_ok _ _ ha]
        simp only [Res.bind]
        rw [load_ok _ _ hb]
        simp only [Res.bind]
        rw [store_ok _ _ _ ha]
        simp only [Res.bind]
        rw [store_ok _ _ _ hb1]
        simp only [Res.bind]
        exact hrun
      · intro t
        rw [hspec t]
        simp only [List.getElem?_set, List.length_set]
        by_cases h1 : i + (j + 1) ≤ t ∧ t < i + w - (j + 1)
        · rw [if_pos h1, if_neg (by omega), if_neg (by omega), if_pos (by omega)]
        · rw [if_neg h1]
          by_cases h3 : i + w - 1 - j = t
          · rw [if_pos h3, if_pos hb, if_pos (by omega)]
            have : i + w - 1 - (t - i) = i + j := by omega
            rw [this, List.getElem?_eq_getElem ha]
          · rw [if_neg h3]
            by_cases h2 : i + j = t
            · rw [if_pos h2, if_pos ha, if_pos (by omega)]
              have : i + w - 1 - (t - i) = i + w - 1 - j := by omega
              rw [this, List.getElem?_eq_getElem hb]
            · rw [if_neg h2, if_neg (by omega)]
    · refine ⟨buf, by simp [array_change_endian_swap, hc], rfl, ?_⟩
      intro t
      split
      · have : i + w - 1 - (t - i) = t := by omega
        rw [this]
      · rfl

/-- The outer loop of `array_change_endian`, started at `i` with `m` chunks to go,
mirrors each of the chunks `[i + 64*c, i + 64*c + 64)`, `c < m`. -/
theorem array_change_endian_for_spec (len : Nat) :
    ∀ (m i fuel : Nat) (buf : List Byte), len ≤ i + 64 * m → (1 ≤ m → i + 64 * (m - 1) < len) →
      m ≤ fuel → i + 64 * m ≤ buf.length →
      ∃ out, array_change_endian_for len 64 fuel i buf = .ok out ∧
        out.length = buf.length ∧
        ∀ t, out[t]? =
          if i ≤ t ∧ t < i + 64 * m then buf[i + 64 * ((t - i) / 64) + (63 - (t - i) % 64)]?
          else buf[t]? := by
  intro m
  induction m with
  | zero =>
    intro i fuel buf h1 _ _ _
    have hc : ¬ i < len := by omega
    refine ⟨buf, by cases fuel <;> simp [array_change_endian_for, hc], rfl, ?_⟩
    intro t
    rw [if_neg (by omega)]
  | succ m ih =>
    intro i fuel buf h1 h2 hfuel hlen
    have hc : i < len := by
      have := h2 (by omega)
      omega
    obtain ⟨fuel1, hf⟩ : ∃ f, fuel = f + 1 := ⟨fuel - 1, by omega⟩
    subst hf
    obtain ⟨buf1, hrun1, hlen1, hspec1⟩ :=
      array_change_endian_swap_spec i 64 (64 / 2) 0 buf (by omega) (by omega) (by omega)
    obtain ⟨out, hrun2, hlen2, hspec2⟩ :=
      ih (i + 64) fuel1 buf1 (by omega) (by intro hm; have := h2 (by omega); omega) (by omega)
        (by rw [hlen1]; omega)
    refine ⟨out, ?_, by rw [hlen2, hlen1], ?_⟩
    · rw [array_change_endian_for, if_pos hc, hrun1]
      simp only [Res.bind]
      exact hrun2
    · intro t
      rw [hspec2 t]
      by_cases h3 : i + 64 ≤ t ∧ t < i + 64 + 64 * m
      · rw [if_pos h3, if_pos (by omega), hspec1, if_neg (by omega)]
        have : i + 64 + 64 * ((t - (i + 64)) / 64) + (63 - (t - (i + 64)) % 64)
            = i + 64 * ((t - i) / 64) + (63 - (t - i) % 64) := by omega
        rw [this]
      · rw [if_neg h3, hspec1]
        by_cases h4 : i ≤ t ∧ t < i + 64
        · rw [if_pos (by omega), if_pos (by omega)]
          have : i + 64 - 1 - (t - i) = i + 64 * ((t - i) / 64) + (63 - (t - i) % 64) := by
            omega
          rw [this]
        · rw [if_neg (by omega), if_neg (by omega)]

/-- Content of the buffer after `array_change_endian(buf, len)`: every cache line that
starts below `len` is mirrored, provided the buffer holds all these lines. -/
theorem array_change_endian_mirror (buf : List Byte) (len : Nat)
    (hlen : 64 * ((len + 63) / 64) ≤ buf.length) :
    ∃ out, array_change_endian buf len = .ok out ∧ out.length = buf.length ∧
      ∀ t, out[t]? =
        if t < 64 * ((len + 63) / 64) then buf[64 * (t / 64) + (63 - t % 64)]? else buf[t]? := by
  obtain ⟨out, hrun, hlen1, hspec⟩ :=
    array_change_endian_for_spec len ((len + 63) / 64) 0 len buf (by omega)
      (by intro _; omega) (by omega) (by omega)
  refine ⟨out, hrun, hlen1, ?_⟩
  intro t
  rw [hspec t]
  simp only [Nat.zero_add, Nat.sub_zero, Nat.zero_le, true_and]

/-- C9. For a length `n` that is a multiple of `L = 64` and does not exceed the size of
the buffer, `array_change_endian(buf, n)` returns a buffer whose byte `c*L + j` is the
original byte `c*L + (L - 1 - j)` for every chunk `c < n/L` and `j < L`, and whose bytes at
indices `≥ n` are unchanged. -/
theorem array_change_endian_reverses (buf : List Byte) (n : Nat) (hmul : n % CL 1 = 0)
    (hn : n ≤ buf.length) :
    ∃ out, array_change_endian buf n = .ok out ∧ out.length = buf.length ∧
      (∀ c j, c < n / CL 1 → j < CL 1 →
        out[c * CL 1 + j]? = buf[c * CL 1 + (CL 1 - 1 - j)]?) ∧
      (∀ t, n ≤ t → out[t]? = buf[t]?) := by
  have hCL : CL 1 = 64 := rfl
  rw [hCL] at hmul ⊢
  obtain ⟨out, hrun, hlen, hspec⟩ := array_change_endian_mirror buf n (by omega)
  refine ⟨out, hrun, hlen, ?_, ?_⟩
  · intro c j hc hj
    rw [hspec, if_pos (by omega)]
    have : 64 * ((c * 64 + j) / 64) + (63 - (c * 64 + j) % 64) = c * 64 + (64 - 1 - j) := by
      omega
    rw [this]
  · intro t ht
    rw [hspec, if_neg (by omega)]

set_option maxRecDepth 100000 in
/-- Witness for C9: one cache line of a buffer of 70 bytes. -/
theorem array_change_endian_reverses_witness :
    ∃ out, array_change_endian ((List.range 70).map fun x => (Fin.ofNat x : Byte)) 64 = .ok out ∧
      out.length = ((List.range 70).map fun x => (Fin.ofNat x : Byte)).length ∧
      (∀ c j, c < 64 / CL 1 → j < CL 1 →
        out[c * CL 1 + j]? =
          ((List.range 70).map fun x => (Fin.ofNat x : Byte))[c * CL 1 + (CL 1 - 1 - j)]?) ∧
      (∀ t, 64 ≤ t → out[t]? = ((List.range 70).map fun x => (Fin.ofNat x : Byte))[t]?) :=
  array_change_endian_reverses _ 64 (by decide) (by decide)

/-- C10, as amended. If the buffer holds every cache line that starts below `n`
(`ceil(n / L) * L` bytes), applying `array_change_endian(buf, n)` twice restores the
original buffer. -/
theorem array_change_endian_involution (buf : List Byte) (n : Nat)
    (hlen : CL ((n + CL 1 - 1) / CL 1) ≤ buf.length) :
    ∃ mid, array_change_endian buf n = .ok mid ∧ array_change_endian mid n = .ok buf := by
  have hCL : CL 1 = 64 := rfl
  rw [hCL] at hlen
  have hlen0 : 64 * ((n + 63) / 64) ≤ buf.length := by
    unfold CL at hlen; omega
  obtain ⟨mid, hrun1, hlen1, hspec1⟩ := array_change_endian_mirror buf n hlen0
  obtain ⟨out, hrun2, -, hspec2⟩ := array_change_endian_mirror mid n (by rw [hlen1]; exact hlen0)
  refine ⟨mid, hrun1, ?_⟩
  rw [hrun2]
  congr 1
  apply List.ext_getElem?
  intro t
  rw [hspec2 t]
  by_cases ht : t < 64 * ((n + 63) / 64)
  · rw [if_pos ht, hspec1, if_pos (by omega)]
    have : 64 * ((64 * (t / 64) + (63 - t % 64)) / 64) + (63 - (64 * (t / 64) + (63 - t % 64)) % 64)
        = t := by omega
    rw [this]
  · rw [if_neg ht, hspec1, if_neg ht]

set_option maxRecDepth 100000 in
/-- Witness for C10 as amended: a length of 70 on a buffer of two cache lines. -/
theorem array_change_endian_involution_witness :
    ∃ mid, array_change_endian ((List.range 128).map fun x => (Fin.ofNat x : Byte)) 70 = .ok mid ∧
      array_change_endian mid 70 = .ok ((List.range 128).map fun x => (Fin.ofNat x : Byte)) :=
  array_change_endian_involution _ 70 (by decide)

set_option maxRecDepth 100000 in
/-- C10, counterexample. On a buffer of 96 bytes with `n = 96` the second chunk
`[64, 128)` reaches beyond the buffer: the call accesses `buf[127]`, so the buffer is
not restored by two calls. -/
theorem array_change_endian_involution_counterexample :
    array_change_endian (zeroBuffer 96) 96 = .fault .outOfBounds ∧
    ((array_change_endian (zeroBuffer 96) 96).bind fun mid => array_change_endian mid 96)
      ≠ .ok (zeroBuffer 96) := by
  decide

/-! ### Partial trailing chunk of `array_change_endian` -/

/-- C11, as amended. When `n` is not a multiple of `L` and the buffer holds the whole
cache line in which `n` lies, `array_change_endian(buf, n)` mirrors that whole line: with
`base = n - n mod L`, the byte at `base + j` becomes the original byte at
`base + (L - 1 - j)` for every `j < L`, and every byte from `base + L` on is unchanged. -/
theorem array_change_endian_trailing (buf : List Byte) (n : Nat) (hn : n % CL 1 ≠ 0)
    (hlen : n - n % CL 1 + CL 1 ≤ buf.length) :
    ∃ out, array_change_endian buf n = .ok out ∧ out.length = buf.length ∧
      (∀ j, j < CL 1 →
        out[n - n % CL 1 + j]? = buf[n - n % CL 1 + (CL 1 - 1 - j)]?) ∧
      (∀ t, n - n % CL 1 + CL 1 ≤ t → out[t]? = buf[t]?) := by
  have hCL : CL 1 = 64 := rfl
  rw [hCL] at hn hlen ⊢
  obtain ⟨out, hrun, hlen1, hspec⟩ := array_change_endian_mirror buf n (by omega)
  refine ⟨out, hrun, hlen1, ?_, ?_⟩
  · intro j hj
    rw [hspec, if_pos (by omega)]
    have : 64 * ((n - n % 64 + j) / 64) + (63 - (n - n % 64 + j) % 64)
        = n - n % 64 + (64 - 1 - j) := by omega
    rw [this]
  · intro t ht
    rw [hspec, if_neg (by omega)]

set_option maxRecDepth 100000 in
/-- Witness for C11 as amended: a length of 70 on a buffer of two cache lines. -/
theorem array_change_endian_trailing_witness :
    ∃ out, array_change_endian ((List.range 128).map fun x => (Fin.ofNat x : Byte)) 70
        = .ok out ∧
      out.length = ((List.range 128).map fun x => (Fin.ofNat x : Byte)).length ∧
      (∀ j, j < CL 1 →
        out[70 - 70 % CL 1 + j]? =
          ((List.range 128).map fun x => (Fin.ofNat x : Byte))[70 - 70 % CL 1 + (CL 1 - 1 - j)]?) ∧
      (∀ t, 70 - 70 % CL 1 + CL 1 ≤ t →
        out[t]? = ((List.range 128).map fun x => (Fin.ofNat x : Byte))[t]?) :=
  array_change_endian_trailing _ 70 (by decide) (by decide)

set_option maxRecDepth 100000 in
/-- C11, counterexample. On the buffer `0, 1, ..., 127` with `n = 70` (`r = 6`,
`base = 64`) the byte at `base + 0` becomes the original byte 127, not the original byte
at `base + r - 1 = 69`, and the byte at index `127 ≥ n` is modified (it becomes 64). -/
theorem array_change_endian_trailing_counterexample :
    (array_change_endian ((List.range 128).map fun x => (Fin.ofNat x : Byte)) 70).map
        (fun out => (out[64]?, out[69]?, out[127]?))
      = .ok (some 127, some 122, some 64) := by
  decide

/-! ### `array_reset` -/

theorem array_reset_for_spec (len : Nat) :
    ∀ (fuel i : Nat) (buf : List Byte), len - i ≤ fuel → len ≤ buf.length →
      ∃ out, array_reset_for len fuel i buf = .ok out ∧ out.length = buf.length ∧
        ∀ t, out[t]? = if i ≤ t ∧ t < len then some 0 else buf[t]? := by
  intro fuel
  induction fuel with
  | zero =>
    intro i buf hfuel _
    have hc : ¬ i < len := by omega
    refine ⟨buf, by simp [array_reset_for, hc], rfl, ?_⟩
    intro t
    rw [if_neg (by omega)]
  | succ fuel ih =>
    intro i buf hfuel hlen
    by_cases hc : i < len
    · obtain ⟨out, hrun, hlen1, hspec⟩ :=
        ih (i + 1) (buf.set i 0) (by omega) (by rw [List.length_set]; exact hlen)
      refine ⟨out, ?_, by rw [hlen1, List.length_set], ?_⟩
      · rw [array_reset_for, if_pos hc, store_ok _ _ _ (by omega)]
        simp only [Res.bind]
        exact hrun
      · intro t
        rw [hspec t, List.getElem?_set]
        by_cases h1 : i + 1 ≤ t ∧ t < len
        · rw [if_pos h1, if_pos (by omega)]
        · rw [if_neg h1]
          by_cases h2 : i = t
          · rw [if_pos h2, if_pos (by omega), if_pos (by omega)]
          · rw [if_neg h2, if_neg (by omega)]
    · refine ⟨buf, by simp [array_reset_for, hc], rfl, ?_⟩
      intro t
      rw [if_neg (by omega)]

/-- C18. For every buffer and every length `n` not exceeding its size,
`array_reset(buf, n)` returns a buffer whose bytes at indices `< n` are 0 and whose bytes
at indices `≥ n` are unchanged. -/
theorem array_reset_prefix (buf : List Byte) (n : Nat) (hn : n ≤ buf.length) :
    ∃ out, array_reset buf n = .ok out ∧ out.length = buf.length ∧
      (∀ t, t < n → out[t]? = some 0) ∧ (∀ t, n ≤ t → out[t]? = buf[t]?) := by
  obtain ⟨out, hrun, hlen, hspec⟩ := array_reset_for_spec n n 0 buf (by omega) hn
  refine ⟨out, hrun, hlen, ?_, ?_⟩
  · intro t ht
    rw [hspec, if_pos (by omega)]
  · intro t ht
    rw [hspec, if_neg (by omega)]

/-- Witness for C18: the first three bytes of a buffer of five. -/
theorem array_reset_prefix_witness :
    ∃ out, array_reset [7, 8, 9, 10, 11] 3 = .ok out ∧
      out.length = [(7 : Byte), 8, 9, 10, 11].length ∧
      (∀ t, t < 3 → out[t]? = some 0) ∧
      (∀ t, 3 ≤ t → out[t]? = [(7 : Byte), 8, 9, 10, 11][t]?) :=
  array_reset_prefix [7, 8, 9, 10, 11] 3 (by decide)

/-! ### The loader `array_load_file` -/

theorem shift_in_zero (b : Byte) : (toChar (schar b * 2)).val = (2 * b.val) % 256 := by
  have := b.isLt
  unfold toChar schar
  simp only
  split <;> omega

theorem shift_in_one (b : Byte) :
    (toChar (schar (toChar (schar b * 2)) + 1)).val = (2 * b.val + 1) % 256 := by
  have := b.isLt
  unfold toChar schar
  simp only
  split <;> split <;> omega

theorem msbByte_eq_msbPartial (bits : List Bool) (m : Nat) :
    msbByte bits m = msbPartial bits m 8 := rfl

theorem msbPartial_snoc (bits : List Bool) (b : Bool) (m r : Nat)
    (hlen : bits.length = 8 * m + r) :
    msbPartial (bits ++ [b]) m (r + 1) = 2 * msbPartial bits m r + b.toNat := by
  unfold msbPartial
  rw [List.range_succ, List.map_append, List.sum_append, ← List.sum_map_mul_left]
  have h1 : (List.range r).map
        (fun j => ((bits ++ [b]).getD (8 * m + j) false).toNat * 2 ^ (r + 1 - 1 - j))
      = (List.range r).map
        (fun j => 2 * ((bits.getD (8 * m + j) false).toNat * 2 ^ (r - 1 - j))) := by
    apply List.map_congr_left
    intro j hj
    have hj1 : j < r := List.mem_range.mp hj
    rw [List.getD_append _ _ _ _ (by omega)]
    have e : r + 1 - 1 - j = (r - 1 - j) + 1 := by omega
    rw [e, pow_succ]
    ring
  rw [h1]
  have h2 : (bits ++ [b]).getD (8 * m + r) false = b := by
    rw [List.getD_append_right _ _ _ _ (by omega)]
    have : 8 * m + r - bits.length = 0 := by omega
    rw [this]
    rfl
  simp only [List.map_cons, List.map_nil, List.sum_cons, List.sum_nil, h2, Nat.add_zero]
  have e : r + 1 - 1 - r = 0 := by omega
  rw [e, pow_zero, Nat.mul_one]

theorem msbByte_snoc (bits : List Bool) (b : Bool) (m : Nat) (h : 8 * m + 8 ≤ bits.length) :
    msbByte (bits ++ [b]) m = msbByte bits m := by
  unfold msbByte
  apply congrArg
  apply List.map_congr_left
  intro j hj
  have hj1 : j < 8 := List.mem_range.mp hj
  rw [List.getD_append _ _ _ _ (by omega)]

theorem msbPartial_lt (bits : List Bool) (m r : Nat) : msbPartial bits m r < 2 ^ r := by
  induction r generalizing bits m with
  | zero => simp [msbPartial]
  | succ r ih =>
    unfold msbPartial
    rw [List.range_succ, List.map_append, List.sum_append]
    have h1 : ((List.range r).map
          (fun j => (bits.getD (8 * m + j) false).toNat * 2 ^ (r + 1 - 1 - j))).sum
        = 2 * msbPartial bits m r := by
      unfold msbPartial
      rw [← List.sum_map_mul_left]
      apply congrArg
      apply List.map_congr_left
      intro j hj
      have hj1 : j < r := List.mem_range.mp hj
      have e : r + 1 - 1 - j = (r - 1 - j) + 1 := by omega
      rw [e, pow_succ]
      ring
    rw [h1]
    have h2 := ih bits m
    have h3 : (bits.getD (8 * m + r) false).toNat ≤ 1 := Bool.toNat_le _
    simp only [List.map_cons, List.map_nil, List.sum_cons, List.sum_nil, Nat.add_zero]
    have e : r + 1 - 1 - r = 0 := by omega
    rw [e, pow_zero, Nat.mul_one, pow_succ]
    omega

/-- Shifting a bit into the accumulator: the low `r + 1` bits of the new accumulator
are the low `r` bits of the old one followed by the new bit. -/
theorem accumulate_mod (acc r b : Nat) (hr : r < 8) (hb : b ≤ 1) :
    ((2 * acc + b) % 256) % 2 ^ (r + 1) = 2 * (acc % 2 ^ r) + b := by
  interval_cases r <;> simp <;> omega

theorem bitsOf_append (pre cs : List Char) : bitsOf (pre ++ cs) = bitsOf pre ++ bitsOf cs := by
  unfold bitsOf
  rw [List.filter_append, List.map_append]

theorem bitsOf_cons_one (cs : List Char) : bitsOf ('1' :: cs) = true :: bitsOf cs := by
  unfold bitsOf
  rw [List.filter_cons_of_pos (by decide)]
  simp

theorem bitsOf_cons_zero (cs : List Char) : bitsOf ('0' :: cs) = false :: bitsOf cs := by
  unfold bitsOf
  rw [List.filter_cons_of_pos (by decide)]
  simp

theorem bitsOf_cons_other (c : Char) (cs : List Char) (h1 : c ≠ '1') (h0 : c ≠ '0') :
    bitsOf (c :: cs) = bitsOf cs := by
  unfold bitsOf
  rw [List.filter_cons_of_neg (by simp [h1, h0])]

theorem isspace_not_bit (c : Char) (h : isspace c = true) : c ≠ '1' ∧ c ≠ '0' := by
  constructor
  · intro e; subst e; revert h; decide
  · intro e; subst e; revert h; decide

theorem array_load_file_received_spec (buf0 : List Byte) (bits : List Bool) (b : Bool)
    (st : LoadState) (byte : Byte) (hinv : LoadInv buf0 bits st)
    (hbyte : byte.val = (2 * st.byte.val + b.toNat) % 256)
    (hlen : (bits.length + 1) / 8 ≤ buf0.length) :
    ∃ st1, array_load_file_received byte st = .ok st1 ∧ LoadInv buf0 (bits ++ [b]) st1 := by
  obtain ⟨h1, h2, h3, h4, h5, h6, h7⟩ := hinv
  have hb : b.toNat ≤ 1 := Bool.toNat_le _
  have hr : bits.length % 8 < 8 := Nat.mod_lt _ (by norm_num)
  have hdm : bits.length = 8 * (bits.length / 8) + bits.length % 8 :=
    (Nat.div_add_mod _ _).symm
  have hacc := accumulate_mod st.byte.val (bits.length % 8) b.toNat hr hb
  rw [← hbyte, h4, ← msbPartial_snoc bits b _ _ hdm] at hacc
  have hlen' : (bits ++ [b]).length = bits.length + 1 := by simp
  unfold array_load_file_received
  simp only [CHAR_BIT, h3, h2]
  by_cases hfull : bits.length % 8 + 1 ≥ 8
  · have e1 : (bits.length + 1) / 8 = bits.length / 8 + 1 := by omega
    have e2 : (bits.length + 1) % 8 = 0 := by omega
    have e3 : bits.length % 8 + 1 = 8 := by omega
    have hpos : bits.length / 8 < st.buf.length := by omega
    rw [if_pos hfull, store_ok _ _ _ hpos]
    simp only [Res.bind]
    refine ⟨_, rfl, ?_⟩
    unfold LoadInv
    simp only [hlen', e1, e2]
    refine ⟨by rw [List.length_set]; exact h1, trivial, trivial, ?_, ?_, ?_, ?_⟩
    · simp [msbPartial, Nat.mod_one]
    · intro m hm
      by_cases hmq : m = bits.length / 8
      · refine ⟨byte, ?_, ?_⟩
        · rw [hmq, List.getElem?_set_self hpos]
        · rw [e3] at hacc
          rw [hmq, msbByte_eq_msbPartial, ← hacc]
          have := byte.isLt
          omega
      · obtain ⟨x, hx1, hx2⟩ := h5 m (by omega)
        refine ⟨x, ?_, ?_⟩
        · rw [List.getElem?_set_ne (fun e => hmq e.symm)]
          exact hx1
        · rw [hx2, msbByte_snoc bits b m (by omega)]
    · intro m hm
      rw [List.getElem?_set_ne (by omega)]
      exact h6 m (by omega)
    · rw [h7, List.range_succ]
  · have e1 : (bits.length + 1) / 8 = bits.length / 8 := by omega
    have e2 : (bits.length + 1) % 8 = bits.length % 8 + 1 := by omega
    rw [if_neg hfull]
    refine ⟨_, rfl, ?_⟩
    unfold LoadInv
    simp only [hlen', e1, e2]
    refine ⟨h1, trivial, trivial, hacc, ?_, h6, h7⟩
    intro m hm
    obtain ⟨x, hx1, hx2⟩ := h5 m hm
    exact ⟨x, hx1, by rw [hx2, msbByte_snoc bits b m (by omega)]⟩

theorem array_load_file_while_spec (buf0 : List Byte) :
    ∀ (cs : List Char) (bits : List Bool) (st : LoadState), LoadInv buf0 bits st →
      (bits ++ bitsOf cs).length / 8 ≤ buf0.length →
      ∃ st1, array_load_file_while cs st = .ok st1 ∧ LoadInv buf0 (bits ++ bitsOf cs) st1 := by
  intro cs
  induction cs with
  | nil =>
    intro bits st hinv _
    refine ⟨st, rfl, ?_⟩
    simpa [bitsOf] using hinv
  | cons c cs ih =>
    intro bits st hinv hlen
    rw [array_load_file_while]
    by_cases hsp : isspace c = true
    · obtain ⟨n1, n0⟩ := isspace_not_bit c hsp
      rw [if_pos hsp]
      rw [bitsOf_cons_other c cs n1 n0] at hlen ⊢
      exact ih bits st hinv hlen
    · rw [if_neg hsp]
      by_cases h1 : c = '1'
      · subst h1
        rw [if_pos rfl]
        rw [bitsOf_cons_one] at hlen ⊢
        have e : bits ++ true :: bitsOf cs = (bits ++ [true]) ++ bitsOf cs := by simp
        rw [e] at hlen ⊢
        obtain ⟨st1, hrun1, hinv1⟩ :=
          array_load_file_received_spec buf0 bits true st _ hinv
            (by rw [shift_in_one]; rfl)
            (by
              have : bits.length + 1 ≤ ((bits ++ [true]) ++ bitsOf cs).length := by simp
              omega)
        rw [hrun1]
        simp only [Res.bind]
        exact ih _ st1 hinv1 hlen
      · rw [if_neg h1]
        by_cases h0 : c = '0'
        · subst h0
          rw [if_pos rfl]
          rw [bitsOf_cons_zero] at hlen ⊢
          have e : bits ++ false :: bitsOf cs = (bits ++ [false]) ++ bitsOf cs := by simp
          rw [e] at hlen ⊢
          obtain ⟨st1, hrun1, hinv1⟩ :=
            array_load_file_received_spec buf0 bits false st _ hinv
              (by rw [shift_in_zero]; rfl)
              (by
                have : bits.length + 1 ≤ ((bits ++ [false]) ++ bitsOf cs).length := by simp
                omega)
          rw [hrun1]
          simp only [Res.bind]
          exact ih _ st1 hinv1 hlen
        · rw [if_neg h0]
          rw [bitsOf_cons_other c cs h1 h0] at hlen ⊢
          exact ih bits st hinv hlen

theorem loadInv_init (buf : List Byte) : LoadInv buf [] (array_load_file_init buf) := by
  unfold LoadInv array_load_file_init
  simp [msbPartial]

/-- The run of `array_load_file`, under the condition that the buffer has room for
the bytes of the file. -/
theorem array_load_file_run (buf : List Byte) (file : List Char)
    (hlen : (bitsOf file).length / 8 ≤ buf.length) :
    ∃ st, array_load_file_while file (array_load_file_init buf) = .ok st ∧
      array_load_file buf file = .ok (st.buf, st.pos) ∧ LoadInv buf (bitsOf file) st := by
  obtain ⟨st, hrun, hinv⟩ :=
    array_load_file_while_spec buf file [] (array_load_file_init buf) (loadInv_init buf)
      (by simpa using hlen)
  refine ⟨st, hrun, ?_, by simpa using hinv⟩
  unfold array_load_file
  rw [hrun]
  rfl

/-- C12. If the buffer has room for the bytes of the file, `array_load_file` returns,
and for every `m` below `floor(#bits / 8)` the byte stored at index `m` has the value
`sum over j < 8 of b_(8m+j) * 2^(7-j)`, where `b_0, b_1, ...` are the `'0'`/`'1'`
characters of the file read as bits; the byte depends on its own eight bits only. -/
theorem array_load_file_msb_first (buf : List Byte) (file : List Char)
    (hlen : (bitsOf file).length / 8 ≤ buf.length) :
    ∃ out pos, array_load_file buf file = .ok (out, pos) ∧
      ∀ m, m < (bitsOf file).length / 8 →
        ∃ b, out[m]? = some b ∧
          b.val = ((List.range 8).map fun j =>
            ((bitsOf file).getD (8 * m + j) false).toNat * 2 ^ (7 - j)).sum := by
  obtain ⟨st, -, hrun, hinv⟩ := array_load_file_run buf file hlen
  exact ⟨st.buf, st.pos, hrun, hinv.2.2.2.2.1⟩

/-- Witness for C12: eighteen bits with other characters in between, on a buffer of
three bytes. -/
theorem array_load_file_msb_first_witness :
    ∃ out pos, array_load_file [7, 7, 7] "1000 0001 x 0111 1111 11".toList = .ok (out, pos) ∧
      ∀ m, m < (bitsOf "1000 0001 x 0111 1111 11".toList).length / 8 →
        ∃ b, out[m]? = some b ∧
          b.val = ((List.range 8).map fun j =>
            ((bitsOf "1000 0001 x 0111 1111 11".toList).getD (8 * m + j) false).toNat
              * 2 ^ (7 - j)).sum :=
  array_load_file_msb_first [7, 7, 7] "1000 0001 x 0111 1111 11".toList (by decide)

/-- C13. If the buffer has room for the bytes of the file, which contains `t` characters
`'0'` or `'1'`, `array_load_file` returns `floor(t / 8)`; the indices it writes are exactly
`0, ..., floor(t / 8) - 1`: each of these bytes is overwritten with the byte formed by its
eight bits, whatever it held before, and every byte at an index `≥ floor(t / 8)` is
unchanged. The trailing `t mod 8` bits are discarded: on the input `11110` the call
returns 0 and leaves the whole buffer as it was. -/
theorem array_load_file_count (buf : List Byte) (file : List Char)
    (hlen : (bitsOf file).length / 8 ≤ buf.length) :
    (∃ st, array_load_file_while file (array_load_file_init buf) = .ok st ∧
      array_load_file buf file = .ok (st.buf, (bitsOf file).length / 8) ∧
      st.trace = List.range ((bitsOf file).length / 8) ∧
      st.buf.length = buf.length ∧
      (∀ m, m < (bitsOf file).length / 8 →
        ∃ b, st.buf[m]? = some b ∧ b.val = msbByte (bitsOf file) m) ∧
      (∀ m, (bitsOf file).length / 8 ≤ m → st.buf[m]? = buf[m]?)) ∧
    array_load_file buf "11110".toList = .ok (buf, 0) := by
  constructor
  · obtain ⟨st, hwhile, hrun, hinv⟩ := array_load_file_run buf file hlen
    obtain ⟨h1, h2, -, -, h5, h6, h7⟩ := hinv
    refine ⟨st, hwhile, ?_, h7, h1, h5, h6⟩
    rw [hrun, h2]
  · have h5 : (bitsOf "11110".toList).length / 8 = 0 := by decide
    obtain ⟨st, -, hrun, hinv⟩ :=
      array_load_file_run buf "11110".toList (by rw [h5]; exact Nat.zero_le _)
    obtain ⟨-, h2, -, -, -, h6, -⟩ := hinv
    rw [h5] at h2 h6
    have hb : st.buf = buf := List.ext_getElem? fun m => h6 m (Nat.zero_le _)
    rw [hrun, h2, hb]

/-- Witness for C13: twenty bits, with other characters in between, on a buffer of four
bytes; two bytes are written and the last four bits are discarded. -/
theorem array_load_file_count_witness :
    (∃ st, array_load_file_while "0000 0011 x 1100 0000 1111".toList
        (array_load_file_init [7, 7, 7, 7]) = .ok st ∧
      array_load_file [7, 7, 7, 7] "0000 0011 x 1100 0000 1111".toList
        = .ok (st.buf, (bitsOf "0000 0011 x 1100 0000 1111".toList).length / 8) ∧
      st.trace = List.range ((bitsOf "0000 0011 x 1100 0000 1111".toList).length / 8) ∧
      st.buf.length = [(7 : Byte), 7, 7, 7].length ∧
      (∀ m, m < (bitsOf "0000 0011 x 1100 0000 1111".toList).length / 8 →
        ∃ b, st.buf[m]? = some b ∧
          b.val = msbByte (bitsOf "0000 0011 x 1100 0000 1111".toList) m) ∧
      (∀ m, (bitsOf "0000 0011 x 1100 0000 1111".toList).length / 8 ≤ m →
        st.buf[m]? = [(7 : Byte), 7, 7, 7][m]?)) ∧
    array_load_file [(7 : Byte), 7, 7, 7] "11110".toList = .ok ([(7 : Byte), 7, 7, 7], 0) ∧
    array_load_file [(7 : Byte), 7, 7, 7] "0000 0011 x 1100 0000 1111".toList
      = .ok ([(3 : Byte), 192, 7, 7], 2) :=
  ⟨(array_load_file_count [7, 7, 7, 7] "0000 0011 x 1100 0000 1111".toList (by decide)).1,
    (array_load_file_count [7, 7, 7, 7] "0000 0011 x 1100 0000 1111".toList (by decide)).2,
    by decide⟩

theorem array_load_file_while_filter :
    ∀ (cs : List Char) (st : LoadState),
      array_load_file_while cs st
        = array_load_file_while (cs.filter fun c => decide (c = '0') || decide (c = '1')) st := by
  intro cs
  induction cs with
  | nil => intro st; rfl
  | cons c cs ih =>
    intro st
    by_cases h1 : c = '1'
    · subst h1
      rw [List.filter_cons_of_pos (by decide), array_load_file_while, array_load_file_while]
      rw [if_neg (by decide), if_pos rfl, if_neg (by decide), if_pos rfl]
      cases array_load_file_received (toChar (schar (toChar (schar st.byte * 2)) + 1)) st with
      | fault e => rfl
      | ok st1 => exact ih st1
    · by_cases h0 : c = '0'
      · subst h0
        rw [List.filter_cons_of_pos (by decide), array_load_file_while, array_load_file_while]
        rw [if_neg (by decide), if_neg (by decide), if_pos rfl, if_neg (by decide),
          if_neg (by decide), if_pos rfl]
        cases array_load_file_received (toChar (schar st.byte * 2)) st with
        | fault e => rfl
        | ok st1 => exact ih st1
      · rw [List.filter_cons_of_neg (by simp [h1, h0]), array_load_file_while]
        by_cases hsp : isspace c = true
        · rw [if_pos hsp]; exact ih st
        · rw [if_neg hsp, if_neg h1, if_neg h0]; exact ih st

/-- C14. `array_load_file` gives the same result (count and buffer, or fault) on a file
as on the file with every character other than `'0'` and `'1'` deleted; the inputs
`11110000` and `1111 0000` both yield the count 1 and the byte `0xF0`. -/
theorem array_load_file_ignores_others (buf : List Byte) (file : List Char) :
    array_load_file buf file
      = array_load_file buf (file.filter fun c => decide (c = '0') || decide (c = '1')) ∧
    array_load_file [0] "11110000".toList = .ok ([240], 1) ∧
    array_load_file [0] "1111 0000".toList = .ok ([240], 1) := by
  refine ⟨?_, by decide, by decide⟩
  unfold array_load_file
  rw [array_load_file_while_filter]

/-! ### The value of one chunk of `array_get` -/

/-- The arithmetic right shift of a `char` by `d`, as a `char`: the upper `d` bits are
copies of the sign bit. -/
theorem sar_closed (b : Byte) (d : Nat) (hd : d < 8) :
    ((schar b >>> d) % 256).toNat
      = 2 ^ (8 - d) * (if 128 ≤ b.val then 2 ^ d - 1 else 0) + b.val / 2 ^ d := by
  have := b.isLt
  rw [Int.shiftRight_eq_div_pow]
  unfold schar
  by_cases h : b.val < 128
  · have h2 : ¬ 128 ≤ b.val := by omega
    rw [if_pos h, if_neg h2]
    interval_cases d <;> simp <;> omega
  · have h2 : 128 ≤ b.val := by omega
    rw [if_neg h, if_pos h2]
    interval_cases d <;> simp <;> omega

theorem testBit_seven (b : Byte) : b.val.testBit 7 = decide (128 ≤ b.val) := by
  have := b.isLt
  rw [Nat.testBit_to_div_mod]
  by_cases h : 128 ≤ b.val
  · simp [h]; omega
  · simp [h]; omega

theorem byte_testBit_ge (b : Byte) (x : Nat) (hx : 8 ≤ x) : b.val.testBit x = false := by
  apply Nat.testBit_lt_two_pow
  have h1 : (256 : Nat) = 2 ^ 8 := by norm_num
  exact lt_of_lt_of_le b.isLt (by rw [h1]; exact Nat.pow_le_pow_right (by norm_num) hx)

theorem sar_testBit (b : Byte) (d x : Nat) (hd : d < 8) :
    (toChar (schar b >>> d)).val.testBit x
      = if x < 8 - d then b.val.testBit (d + x) else (decide (x < 8) && b.val.testBit 7) := by
  have hlt : b.val / 2 ^ d < 2 ^ (8 - d) := by
    apply Nat.div_lt_of_lt_mul
    rw [← pow_add]
    have : d + (8 - d) = 8 := by omega
    rw [this]
    exact b.isLt
  have hval : (toChar (schar b >>> d)).val = ((schar b >>> d) % 256).toNat := rfl
  rw [hval, sar_closed b d hd, Nat.testBit_mul_pow_two_add _ hlt]
  by_cases hx : x < 8 - d
  · rw [if_pos hx, if_pos hx, ← Nat.shiftRight_eq_div_pow, Nat.testBit_shiftRight]
  · rw [if_neg hx, if_neg hx, testBit_seven]
    by_cases h : 128 ≤ b.val
    · rw [if_pos h, Nat.testBit_two_pow_sub_one]
      by_cases hx8 : x < 8
      · simp [h, hx8]; omega
      · simp [h, hx8]; omega
    · rw [if_neg h]
      simp [h]

theorem intBits_natCast (n : Nat) (h : n < 4294967296) : intBits (n : Int) = n := by
  unfold intBits
  omega

theorem ofIntBits_small (p : Nat) (h : p < 2147483648) : ofIntBits p = (p : Int) := by
  unfold ofIntBits
  rw [if_pos h]

/-- The operator `&` with the mask `(1 << u) - 1`, `u ≤ 8`, keeps the low `u` bits. -/
theorem int_and_mask (x : Int) (u : Nat) (hu : u ≤ 8) :
    int_and x (((1 <<< u : Nat) : Int) - 1) = ((intBits x % 2 ^ u : Nat) : Int) := by
  have hpow : 2 ^ u ≤ 2 ^ 8 := Nat.pow_le_pow_right (by norm_num) hu
  have hpos : 1 ≤ 2 ^ u := Nat.one_le_two_pow
  have hcast : (((1 <<< u : Nat) : Int) - 1) = ((2 ^ u - 1 : Nat) : Int) := by
    rw [Nat.one_shiftLeft]
    omega
  unfold int_and
  rw [hcast, intBits_natCast _ (by omega), Nat.and_pow_two_sub_one_eq_mod]
  apply ofIntBits_small
  have := Nat.mod_lt (intBits x) (show 0 < 2 ^ u by omega)
  omega

/-- The operator `0xff &` keeps the low eight bits. -/
theorem int_and_ff (x : Int) : int_and 0xff x = ((intBits x % 256 : Nat) : Int) := by
  have h := int_and_mask x 8 (by norm_num)
  unfold int_and at h ⊢
  rw [Nat.and_comm]
  exact h

/-- The value `0xff & byte` of a `char` is its pattern. -/
theorem int_and_ff_schar (b : Byte) : (int_and 0xff (schar b)).toNat = b.val := by
  rw [int_and_ff, intBits_schar_mod]
  rfl

/-- The chunk that `array_get` ORs into the value when it does not mask: the byte
shifted right arithmetically by `d`. -/
theorem get_chunk_unmasked (b : Byte) (d x : Nat) (hd : d < 8) :
    ((int_and 0xff (schar (toChar (schar b >>> d)))).toNat).testBit x
      = if x < 8 - d then b.val.testBit (d + x) else (decide (x < 8) && b.val.testBit 7) := by
  rw [int_and_ff_schar, sar_testBit b d x hd]

/-- The chunk that `array_get` ORs into the value when it masks to `u` bits. -/
theorem get_chunk_masked (b : Byte) (d u x : Nat) (hd : d < 8) (hu : u < 8 - d) :
    ((int_and 0xff (schar (toChar (int_and (schar (toChar (schar b >>> d)))
        (((1 <<< u : Nat) : Int) - 1))))).toNat).testBit x
      = (decide (x < u) && b.val.testBit (d + x)) := by
  rw [int_and_ff_schar, int_and_mask _ u (by omega), toChar_natCast]
  have h256 : (256 : Nat) = 2 ^ 8 := by norm_num
  have hdvd : 2 ^ u ∣ 256 := by
    rw [h256]; exact pow_dvd_pow 2 (by omega)
  have e : intBits (schar (toChar (schar b >>> d))) % 2 ^ u
      = (toChar (schar b >>> d)).val % 2 ^ u := by
    rw [← intBits_schar_mod (toChar (schar b >>> d)), Nat.mod_mod_of_dvd _ hdvd]
  have hm : (toChar (schar b >>> d)).val % 2 ^ u % 256 = (toChar (schar b >>> d)).val % 2 ^ u := by
    apply Nat.mod_eq_of_lt
    have h1 := Nat.mod_lt (toChar (schar b >>> d)).val (show 0 < 2 ^ u by positivity)
    have h2 := Nat.le_of_dvd (by norm_num) hdvd
    omega
  rw [e, hm, Nat.testBit_mod_two_pow, sar_testBit b d x hd]
  by_cases hx : x < u
  · have h2 : x < 8 - d := by omega
    simp [hx, h2]
  · simp [hx]

/-! ### The value extracted by `array_get` -/

/-- One iteration of the `while` loop of `array_get`, with the bits of the chunk it ORs
into the value. -/
theorem array_get_while_step (buf : List Byte) (W cl bp fuel c acc : Nat) (trace : List Nat)
    (hc : c < W) (hc64 : c < 64) (hidx : CL cl + (bp + c) / 8 < buf.length) :
    ∃ value use,
      array_get_while buf W cl bp (fuel + 1) c acc trace
        = array_get_while buf W cl bp fuel (c + use) ((acc ||| (value <<< c)) % 2 ^ 64)
            (trace ++ [CL cl + (bp + c) / 8]) ∧
      use = (if 8 - (bp + c) % 8 > W - c then W - c else 8 - (bp + c) % 8) ∧
      ∀ y, value.testBit y =
        if 8 - (bp + c) % 8 > W - c then
          (decide (y < W - c) && (buf[CL cl + (bp + c) / 8]).val.testBit ((bp + c) % 8 + y))
        else if y < 8 - (bp + c) % 8 then
          (buf[CL cl + (bp + c) / 8]).val.testBit ((bp + c) % 8 + y)
        else (decide (y < 8) && (buf[CL cl + (bp + c) / 8]).val.testBit 7) := by
  have hd : (bp + c) % 8 < 8 := Nat.mod_lt _ (by norm_num)
  have h64 : ¬ 64 ≤ c := by omega
  rw [array_get_while, if_pos hc]
  simp only [CHAR_BIT]
  rw [load_ok _ _ hidx]
  simp only [Res.bind]
  rw [if_neg h64]
  by_cases hm : 8 - (bp + c) % 8 > W - c
  · simp only [hm, if_true]
    exact ⟨_, _, rfl, rfl, fun y => get_chunk_masked _ _ _ _ hd (by omega)⟩
  · simp only [hm, if_false]
    exact ⟨_, _, rfl, rfl, fun y => get_chunk_unmasked _ _ _ hd⟩

theorem testBit_acc (acc value c x : Nat) :
    ((acc ||| (value <<< c)) % 2 ^ 64).testBit x
      = (decide (x < 64) && (acc.testBit x || (decide (c ≤ x) && value.testBit (x - c)))) := by
  rw [Nat.testBit_mod_two_pow, Nat.testBit_or, Nat.testBit_shiftLeft]

theorem bufBit_of_byte (buf : List Byte) (idx y : Nat) (hidx : idx < buf.length) (hy : y < 8) :
    (buf[idx]).val.testBit y = bufBit buf (8 * idx + y) := by
  rw [bufBit_eq_of_getElem buf (8 * idx + y) buf[idx]
    (by
      have : (8 * idx + y) / 8 = idx := by omega
      rw [this]; exact List.getElem?_eq_getElem hidx)]
  have : (8 * idx + y) % 8 = y := by omega
  rw [this]

/-- The `while` loop of `array_get` from a byte-aligned position on: the remaining bits
of the field are ORed onto the accumulated value. -/
theorem array_get_while_aligned_tight (buf : List Byte) (W cl bp : Nat) (hW : W ≤ 64)
    (hlen : CL cl + (bp + W + 7) / 8 ≤ buf.length) :
    ∀ (fuel c acc : Nat) (trace : List Nat), ((bp + c) % 8 = 0 ∨ W ≤ c) → W - c ≤ fuel →
      acc < 2 ^ 64 →
      ∃ v tr, array_get_while buf W cl bp fuel c acc trace = .ok (v, trace ++ tr) ∧
        ∀ x, v.testBit x =
          (acc.testBit x || (decide (c ≤ x) && decide (x < W) &&
            bufBit buf (CL cl * 8 + bp + x))) := by
  intro fuel
  induction fuel with
  | zero =>
    intro c acc trace _ hfuel _
    have hc : ¬ c < W := by omega
    refine ⟨acc, [], by simp [array_get_while, hc], ?_⟩
    intro x
    by_cases h1 : c ≤ x
    · have h2 : ¬ x < W := by omega
      simp [h1, h2]
    · simp [h1]
  | succ fuel ih =>
    intro c acc trace hal hfuel hacc
    by_cases hc : c < W
    · have hd0 : (bp + c) % 8 = 0 := by omega
      have hidx : CL cl + (bp + c) / 8 < buf.length := by unfold CL at *; omega
      obtain ⟨value, use, hstep, huse, hval⟩ :=
        array_get_while_step buf W cl bp fuel c acc trace hc (by omega) hidx
      rw [hd0] at huse hval
      have huse1 : 1 ≤ use ∧ use ≤ 8 ∧ c + use ≤ W := by
        rw [huse]; split <;> omega
      obtain ⟨v, tr, hrun, hv⟩ :=
        ih (c + use) ((acc ||| (value <<< c)) % 2 ^ 64) (trace ++ [CL cl + (bp + c) / 8])
          (by
            by_cases h8 : 8 - 0 > W - c
            · rw [if_pos h8] at huse; right; omega
            · rw [if_neg h8] at huse; left; omega)
          (by omega) (Nat.mod_lt _ (by positivity))
      refine ⟨v, (CL cl + (bp + c) / 8) :: tr, ?_, ?_⟩
      · rw [hstep, hrun]
        simp
      · intro x
        rw [hv x, testBit_acc]
        have hvalx : value.testBit (x - c)
            = (decide (x - c < use) && (buf[CL cl + (bp + c) / 8]).val.testBit (x - c)) := by
          rw [hval (x - c)]
          by_cases h8 : 8 - 0 > W - c
          · rw [if_pos h8] at huse ⊢
            rw [huse, Nat.zero_add]
          · rw [if_neg h8] at huse ⊢
            rw [huse, Nat.zero_add]
            by_cases hx8 : x - c < 8 - 0
            · rw [if_pos hx8]; simp [hx8]
            · rw [if_neg hx8]
              have : ¬ x - c < 8 := by omega
              simp [this, hx8]
        rw [hvalx]
        by_cases hx64 : x < 64
        · by_cases h1 : c ≤ x
          · by_cases h2 : x - c < use
            · have hb := bufBit_of_byte buf (CL cl + (bp + c) / 8) (x - c) hidx (by omega)
              have e : 8 * (CL cl + (bp + c) / 8) + (x - c) = CL cl * 8 + bp + x := by
                omega
              rw [e] at hb
              have h3 : x < W := by omega
              have h4 : ¬ c + use ≤ x := by omega
              simp [hx64, h1, h2, h3, h4, hb]
            · have h4 : c + use ≤ x := by omega
              simp [hx64, h1, h2, h4]
          · have h4 : ¬ c + use ≤ x := by omega
            simp [hx64, h1, h4]
        · have h3 : ¬ x < W := by omega
          have ha : acc.testBit x = false :=
            Nat.testBit_lt_two_pow
              (lt_of_lt_of_le hacc (Nat.pow_le_pow_right (by norm_num) (by omega)))
          simp [hx64, h3, ha]
    · refine ⟨acc, [], by simp [array_get_while, hc], ?_⟩
      intro x
      by_cases h1 : c ≤ x
      · have h2 : ¬ x < W := by omega
        simp [h1, h2]
      · simp [h1]

/-- The `while` loop of `array_get` from a byte-aligned position on, inside a cache line
held by the buffer. -/
theorem array_get_while_aligned (buf : List Byte) (W cl bp : Nat) (hW : W ≤ 64)
    (hfit : bp + W ≤ 512) (hlen : CL (cl + 1) ≤ buf.length) :
    ∀ (fuel c acc : Nat) (trace : List Nat), ((bp + c) % 8 = 0 ∨ W ≤ c) → W - c ≤ fuel →
      acc < 2 ^ 64 →
      ∃ v tr, array_get_while buf W cl bp fuel c acc trace = .ok (v, trace ++ tr) ∧
        ∀ x, v.testBit x =
          (acc.testBit x || (decide (c ≤ x) && decide (x < W) &&
            bufBit buf (CL cl * 8 + bp + x))) :=
  array_get_while_aligned_tight buf W cl bp hW (by unfold CL at *; omega)

/-- The value that the `while` loop of `array_get` extracts at a cursor, on a buffer that
contains the bytes of the field: bit by bit, it is `getBit`. -/
theorem array_get_while_bits_tight (buf : List Byte) (W cl bp : Nat) (trace : List Nat)
    (hW1 : 1 ≤ W) (hW : W ≤ 64) (hlen : CL cl + (bp + W + 7) / 8 ≤ buf.length) :
    ∃ v tr, array_get_while buf W cl bp W 0 0 trace = .ok (v, trace ++ tr) ∧
      ∀ x, v.testBit x = getBit buf (CL cl * 8 + bp) W x := by
  obtain ⟨fuel, hfuel⟩ : ∃ f, W = f + 1 := ⟨W - 1, by omega⟩
  have hidx : CL cl + (bp + 0) / 8 < buf.length := by unfold CL at *; omega
  obtain ⟨value, use, hstep, huse, hval⟩ :=
    array_get_while_step buf W cl bp fuel 0 0 trace (by omega) (by omega) hidx
  simp only [Nat.add_zero, Nat.sub_zero] at hstep huse hval hidx
  have hd : bp % 8 < 8 := Nat.mod_lt _ (by norm_num)
  have hp8 : (CL cl * 8 + bp) % 8 = bp % 8 := by unfold CL; omega
  have huse1 : 1 ≤ use ∧ use ≤ W ∧ ((bp + use) % 8 = 0 ∨ W ≤ use) := by
    rw [huse]; split <;> omega
  obtain ⟨v, tr, hrun, hv⟩ :=
    array_get_while_aligned_tight buf W cl bp hW hlen fuel (0 + use)
      ((0 ||| (value <<< 0)) % 2 ^ 64) (trace ++ [CL cl + bp / 8])
      (by rw [Nat.zero_add]; exact huse1.2.2) (by omega) (Nat.mod_lt _ (by positivity))
  refine ⟨v, (CL cl + bp / 8) :: tr, ?_, ?_⟩
  · have e : array_get_while buf W cl bp W 0 0 trace
        = array_get_while buf W cl bp (fuel + 1) 0 0 trace := by rw [← hfuel]
    rw [e, hstep, hrun]
    simp
  · intro x
    rw [hv x, testBit_acc, Nat.zero_add, Nat.sub_zero, hval x]
    unfold getBit
    rw [hp8]
    have hbyte : ∀ y, y < 8 →
        (buf[CL cl + bp / 8]).val.testBit y = bufBit buf (CL cl * 8 + bp + y - bp % 8) := by
      intro y hy
      rw [bufBit_of_byte buf _ y hidx hy]
      congr 1
      omega
    by_cases hm : 8 - bp % 8 > W
    · rw [if_pos hm] at huse ⊢
      have hg : ¬ 8 - bp % 8 ≤ W := by omega
      by_cases hxW : x < W
      · have e := hbyte (bp % 8 + x) (by omega)
        have e2 : CL cl * 8 + bp + (bp % 8 + x) - bp % 8 = CL cl * 8 + bp + x := by omega
        rw [e2] at e
        have h64 : x < 64 := by omega
        have hu : ¬ use ≤ x := by omega
        simp [hxW, hg, e, h64, hu]
      · have hu : use ≤ x := by omega
        simp [hxW, hg, hu]
    · rw [if_neg hm] at huse ⊢
      have hg : 8 - bp % 8 ≤ W := by omega
      have e7 := hbyte 7 (by omega)
      have e72 : CL cl * 8 + bp + 7 - bp % 8 = CL cl * 8 + bp + (7 - bp % 8) := by omega
      rw [e72] at e7
      by_cases hx1 : x < 8 - bp % 8
      · have e := hbyte (bp % 8 + x) (by omega)
        have e2 : CL cl * 8 + bp + (bp % 8 + x) - bp % 8 = CL cl * 8 + bp + x := by omega
        rw [e2] at e
        have hxW : x < W := by omega
        have h64 : x < 64 := by omega
        have hu : ¬ use ≤ x := by omega
        have hn : ¬ 8 - bp % 8 ≤ x := by omega
        simp [hx1, hxW, e, h64, hu, hn]
      · have hu : use ≤ x := by omega
        have hn : 8 - bp % 8 ≤ x := by omega
        by_cases hx8 : x < 8
        · have h64 : x < 64 := by omega
          by_cases hxW : x < W
          · simp [hx1, hx8, h64, hu, hn, hg, hxW, e7, Bool.or_comm]
          · simp [hx1, hx8, h64, hu, hn, hg, hxW, e7]
        · by_cases hxW : x < W
          · by_cases h64 : x < 64
            · simp [hx1, hx8, h64, hu, hn, hg, hxW]
            · omega
          · simp [hx1, hx8, hu, hn, hg, hxW]

/-- The value that the `while` loop of `array_get` extracts at a cursor inside a cache
line held by the buffer: bit by bit, it is `getBit`. -/
theorem array_get_while_bits (buf : List Byte) (W cl bp : Nat) (trace : List Nat)
    (hW1 : 1 ≤ W) (hW : W ≤ 64) (hfit : bp + W ≤ 512) (hlen : CL (cl + 1) ≤ buf.length) :
    ∃ v tr, array_get_while buf W cl bp W 0 0 trace = .ok (v, trace ++ tr) ∧
      ∀ x, v.testBit x = getBit buf (CL cl * 8 + bp) W x :=
  array_get_while_bits_tight buf W cl bp trace hW1 hW (by unfold CL at *; omega)

theorem array_get_body_bits (buf : List Byte) (s W i : Nat) (hW1 : 1 ≤ W) (hW : W ≤ 64)
    (values : List Nat) (trace : List Nat)
    (hlen : CL (s + i / perLine W + 1) ≤ buf.length) :
    ∃ v tr,
      array_get_body buf W ⟨s + i / perLine W, (i % perLine W) * W, values, trace⟩
        = .ok ⟨s + (i + 1) / perLine W, ((i + 1) % perLine W) * W, values ++ [v],
            trace ++ tr⟩ ∧
      ∀ x, v.testBit x = getBit buf (fieldPos s W i) W x := by
  have hfit := field_fits W i hW1 (by omega)
  obtain ⟨v, tr, hrun, hbits⟩ :=
    array_get_while_bits buf W (s + i / perLine W) ((i % perLine W) * W) trace hW1 hW hfit hlen
  have hstep := cursor_step s W i hW1 (by omega)
  refine ⟨v, tr, ?_, ?_⟩
  · unfold array_get_body
    simp only [hrun, Res.bind]
    by_cases hroll : (i % perLine W) * W + W + W > CL 1 * CHAR_BIT
    · rw [if_pos hroll] at hstep ⊢
      rw [← hstep.1, ← hstep.2]
    · rw [if_neg hroll] at hstep ⊢
      rw [← hstep.1, ← hstep.2]
  · intro x
    rw [hbits x, fieldPos_eq]

theorem array_get_for_bits (buf : List Byte) (s W : Nat) (hW1 : 1 ≤ W) (hW : W ≤ 64) :
    ∀ (n i : Nat) (values : List Nat) (trace : List Nat),
      CL (s + linesNeeded W (i + n)) ≤ buf.length →
      ∃ vals tr,
        array_get_for buf W n ⟨s + i / perLine W, (i % perLine W) * W, values, trace⟩
          = .ok ⟨s + (i + n) / perLine W, ((i + n) % perLine W) * W, values ++ vals,
              trace ++ tr⟩ ∧
        vals.length = n ∧
        ∀ j, j < n → ∀ x, (vals.getD j 0).testBit x = getBit buf (fieldPos s W (i + j)) W x := by
  intro n
  induction n with
  | zero =>
    intro i values trace _
    exact ⟨[], [], by simp [array_get_for], rfl, by intro j hj; omega⟩
  | succ n ih =>
    intro i values trace hlen
    have hline := line_lt_linesNeeded W i (i + (n + 1)) hW1 (by omega) (by omega)
    have hlen0 : CL (s + i / perLine W + 1) ≤ buf.length := by
      unfold CL at *; omega
    obtain ⟨v, tr1, hrun1, hbits1⟩ := array_get_body_bits buf s W i hW1 hW values trace hlen0
    have hassoc : i + 1 + n = i + (n + 1) := by omega
    obtain ⟨vals, tr2, hrun2, hlen2, hbits2⟩ :=
      ih (i + 1) (values ++ [v]) (trace ++ tr1) (by rw [hassoc]; exact hlen)
    rw [hassoc] at hrun2
    refine ⟨v :: vals, tr1 ++ tr2, ?_, by simp [hlen2], ?_⟩
    · rw [array_get_for, hrun1]
      simp only [Res.bind]
      rw [hrun2]
      simp
    · intro j hj x
      cases j with
      | zero => simpa using hbits1 x
      | succ j =>
        have := hbits2 j (by omega) x
        have e : i + 1 + j = i + (j + 1) := by omega
        rw [e] at this
        simpa using this

/-- The outputs of `array_get` on a buffer that holds the cache lines of the values:
bit by bit, output `j` is `getBit` at the position of field `j`. -/
theorem array_get_bits (buf : List Byte) (s n W : Nat) (hW1 : 1 ≤ W) (hW : W ≤ 64)
    (hlen : CL (s + linesNeeded W n) ≤ buf.length) :
    ∃ out, array_get buf s n W = .ok out ∧ out.length = n ∧
      ∀ j, j < n → ∀ x, (out.getD j 0).testBit x = getBit buf (fieldPos s W j) W x := by
  obtain ⟨vals, tr, hrun, hl, hbits⟩ :=
    array_get_for_bits buf s W hW1 hW n 0 [] [] (by simpa using hlen)
  have e0 : (0 : Nat) / perLine W = 0 := Nat.zero_div _
  have e1 : (0 : Nat) % perLine W = 0 := Nat.zero_mod _
  rw [e0, e1] at hrun
  simp only [Nat.add_zero, Nat.zero_mul, Nat.zero_add, List.nil_append] at hrun hbits
  refine ⟨vals, ?_, hl, hbits⟩
  unfold array_get array_get_init
  rw [hrun]
  rfl

/-! ### Consequences for `array_get` -/

theorem getBit_aligned (buf : List Byte) (p W x : Nat) (hp : p % 8 = 0) :
    getBit buf p W x = (decide (x < W) && bufBit buf (p + x)) := by
  unfold getBit
  rw [hp]
  by_cases h1 : 8 - 0 ≤ x
  · have h2 : ¬ x < 8 := by omega
    simp [h2]
  · simp [h1]

/-- C20. For `1 ≤ W ≤ 64` and two buffers that hold the cache lines of `n` values and
agree on the `W` bits of field `i`, `array_get` returns on both and produces the same
`i`-th output. -/
theorem array_get_field_isolation (buf1 buf2 : List Byte) (s n W i : Nat) (hW1 : 1 ≤ W)
    (hW : W ≤ 64) (hi : i < n) (hlen1 : CL (s + linesNeeded W n) ≤ buf1.length)
    (hlen2 : CL (s + linesNeeded W n) ≤ buf2.length)
    (hagree : ∀ b, b < W →
      bufBit buf1 (fieldPos s W i + b) = bufBit buf2 (fieldPos s W i + b)) :
    ∃ out1 out2, array_get buf1 s n W = .ok out1 ∧ array_get buf2 s n W = .ok out2 ∧
      out1.getD i 0 = out2.getD i 0 := by
  obtain ⟨out1, hrun1, -, hbits1⟩ := array_get_bits buf1 s n W hW1 hW hlen1
  obtain ⟨out2, hrun2, -, hbits2⟩ := array_get_bits buf2 s n W hW1 hW hlen2
  refine ⟨out1, out2, hrun1, hrun2, ?_⟩
  apply Nat.eq_of_testBit_eq
  intro x
  rw [hbits1 i hi x, hbits2 i hi x]
  unfold getBit
  by_cases hx : x < W
  · rw [hagree x hx]
    by_cases hg : 8 - fieldPos s W i % 8 ≤ W
    · rw [hagree (7 - fieldPos s W i % 8) (by omega)]
    · simp [hg]
  · by_cases hg : 8 - fieldPos s W i % 8 ≤ W
    · rw [hagree (7 - fieldPos s W i % 8) (by omega)]
      simp [hx]
    · simp [hg, hx]

set_option maxRecDepth 100000 in
/-- Witness for C20: two buffers that differ outside the second 4-bit field. -/
theorem array_get_field_isolation_witness :
    ∃ out1 out2, array_get ((0x5a : Byte) :: zeroBuffer 63) 0 2 4 = .ok out1 ∧
      array_get ((0x53 : Byte) :: (0xff : Byte) :: zeroBuffer 62) 0 2 4 = .ok out2 ∧
      out1.getD 1 0 = out2.getD 1 0 :=
  array_get_field_isolation ((0x5a : Byte) :: zeroBuffer 63)
    ((0x53 : Byte) :: (0xff : Byte) :: zeroBuffer 62) 0 2 4 1 (by decide) (by decide)
    (by decide) (by decide) (by decide) (by decide)

theorem leBytes_succ (buf : List Byte) (base w : Nat) :
    leBytes buf base (w + 1) = 2 ^ (8 * w) * (buf.getD (base + w) 0).val + leBytes buf base w := by
  unfold leBytes
  rw [List.range_succ, List.map_append, List.sum_append]
  have h : (256 : Nat) ^ w = 2 ^ (8 * w) := by
    rw [pow_mul]; norm_num
  simp only [List.map_cons, List.map_nil, List.sum_cons, List.sum_nil, Nat.add_zero, h]
  ring

theorem leBytes_lt (buf : List Byte) (base w : Nat) : leBytes buf base w < 2 ^ (8 * w) := by
  induction w with
  | zero => simp [leBytes]
  | succ w ih =>
    rw [leBytes_succ]
    have hb := (buf.getD (base + w) 0).isLt
    have e : 2 ^ (8 * (w + 1)) = 2 ^ (8 * w) * 256 := by
      rw [Nat.mul_add, pow_add]
      norm_num
    rw [e]
    have h1 : 2 ^ (8 * w) * (buf.getD (base + w) 0).val ≤ 2 ^ (8 * w) * 255 :=
      Nat.mul_le_mul_left _ (by omega)
    omega

theorem leBytes_testBit (buf : List Byte) (base w x : Nat) :
    (leBytes buf base w).testBit x = (decide (x < 8 * w) && bufBit buf (8 * base + x)) := by
  induction w with
  | zero => simp [leBytes]
  | succ w ih =>
    rw [leBytes_succ, Nat.testBit_mul_pow_two_add _ (leBytes_lt buf base w)]
    by_cases hx : x < 8 * w
    · have h2 : x < 8 * (w + 1) := by omega
      rw [if_pos hx, ih]
      simp [hx, h2]
    · rw [if_neg hx]
      by_cases hx8 : x < 8 * (w + 1)
      · unfold bufBit
        have e1 : (8 * base + x) / 8 = base + w := by omega
        have e2 : (8 * base + x) % 8 = x - 8 * w := by omega
        rw [e1, e2]
        simp [hx8]
      · rw [byte_testBit_ge _ _ (by omega)]
        simp [hx8]

/-- C19. For a byte-aligned width `W = 8 * w`, `1 ≤ w ≤ 8`, and a buffer that holds the
cache lines of `n` values, output `i` of `array_get` is the little-endian integer formed
by the `w` bytes from byte index `(s + i div k) * L + (i mod k) * w` on, each taken as an
unsigned value. -/
theorem array_get_byte_aligned (buf : List Byte) (s n w : Nat) (hw1 : 1 ≤ w) (hw : w ≤ 8)
    (hlen : CL (s + linesNeeded (8 * w) n) ≤ buf.length) :
    ∃ out, array_get buf s n (8 * w) = .ok out ∧ out.length = n ∧
      ∀ i, i < n →
        out.getD i 0
          = leBytes buf ((s + i / perLine (8 * w)) * CL 1 + (i % perLine (8 * w)) * w) w := by
  obtain ⟨out, hrun, hl, hbits⟩ := array_get_bits buf s n (8 * w) (by omega) (by omega) hlen
  refine ⟨out, hrun, hl, ?_⟩
  intro i hi
  apply Nat.eq_of_testBit_eq
  intro x
  have hpos : fieldPos s (8 * w) i
      = 8 * ((s + i / perLine (8 * w)) * CL 1 + (i % perLine (8 * w)) * w) := by
    unfold fieldPos CL CHAR_BIT
    ring
  rw [hbits i hi x, leBytes_testBit, hpos, getBit_aligned _ _ _ _ (by omega)]

set_option maxRecDepth 100000 in
/-- Witness for C19: 24-bit values in a cache line whose bytes have the top bit set. -/
theorem array_get_byte_aligned_witness :
    ∃ out, array_get ((List.range 64).map fun x => (Fin.ofNat (x + 200) : Byte)) 0 3 (8 * 3)
        = .ok out ∧ out.length = 3 ∧
      ∀ i, i < 3 →
        out.getD i 0
          = leBytes ((List.range 64).map fun x => (Fin.ofNat (x + 200) : Byte))
              ((0 + i / perLine (8 * 3)) * CL 1 + (i % perLine (8 * 3)) * 3) 3 :=
  array_get_byte_aligned _ 0 3 3 (by decide) (by decide) (by decide)

theorem linesNeeded_one (W : Nat) (hW1 : 1 ≤ W) (hW : W ≤ 512) : linesNeeded W 1 = 1 := by
  have hk := perLine_pos W hW1 hW
  unfold linesNeeded
  have : 1 + perLine W - 1 = perLine W := by omega
  rw [this]
  exact Nat.div_self (by omega)

/-- C15. For `1 ≤ W ≤ 64` and every `v < 2^W`, packing the single value `v` with
`array_put` into a zeroed buffer that holds the cache line and unpacking one value with
`array_get` from the same cache line returns `v`. -/
theorem single_value_roundtrip (s W v len : Nat) (hW1 : 1 ≤ W) (hW : W ≤ 64)
    (hv : v < 2 ^ W) (hlen : CL (s + 1) ≤ len) :
    ∃ buf, array_put (zeroBuffer len) s [v] W = .ok buf ∧ array_get buf s 1 W = .ok [v] := by
  have hone := linesNeeded_one W hW1 (by omega)
  obtain ⟨buf, hput, hbl, hbits⟩ :=
    array_put_zero_bits s W [v] len hW1 hW (by simpa using hv)
      (by simp only [List.length_singleton]; rw [hone]; exact hlen)
  obtain ⟨out, hget, hol, hget_bits⟩ :=
    array_get_bits buf s 1 W hW1 hW (by rw [hone, hbl]; exact hlen)
  refine ⟨buf, hput, ?_⟩
  rw [hget]
  have hval : out.getD 0 0 = v := by
    apply Nat.eq_of_testBit_eq
    intro x
    have hp : fieldPos s W 0 % 8 = 0 := by
      unfold fieldPos CL CHAR_BIT
      rw [Nat.zero_div, Nat.zero_mod]
      omega
    rw [hget_bits 0 (by omega) x, getBit_aligned _ _ _ _ hp]
    by_cases hx : x < W
    · cases hvx : v.testBit x with
      | true =>
        have : bufBit buf (fieldPos s W 0 + x) = true :=
          (hbits _).mpr ⟨0, x, by simp, hx, rfl, by simpa using hvx⟩
        simp [hx, this]
      | false =>
        cases hb : bufBit buf (fieldPos s W 0 + x) with
        | false => simp
        | true =>
          obtain ⟨j, b, hj, hb1, hq, hjb⟩ := (hbits _).mp hb
          have hj0 : j = 0 := by simpa using hj
          subst hj0
          have hxb : x = b := by omega
          subst hxb
          simp at hjb
          rw [hjb] at hvx
          exact absurd hvx (by simp)
    · have : v.testBit x = false :=
        Nat.testBit_lt_two_pow (lt_of_lt_of_le hv (Nat.pow_le_pow_right (by norm_num) (by omega)))
      simp [hx, this]
  match out, hol, hval with
  | [a], _, h => simp at h; rw [h]

set_option maxRecDepth 100000 in
/-- Witness for C15: the value 5 at width 8. -/
theorem single_value_roundtrip_witness :
    ∃ buf, array_put (zeroBuffer 64) 0 [5] 8 = .ok buf ∧ array_get buf 0 1 8 = .ok [5] :=
  single_value_roundtrip 0 8 5 64 (by decide) (by decide) (by decide) (by decide)

/-! ### Bit widths outside `1 .. 64` -/

theorem array_get_for_width_zero (buf : List Byte) (s : Nat) :
    ∀ (n : Nat) (values : List Nat) (trace : List Nat),
      array_get_for buf 0 n ⟨s, 0, values, trace⟩
        = .ok ⟨s, 0, values ++ List.replicate n 0, trace⟩ := by
  intro n
  induction n with
  | zero => intro values trace; simp [array_get_for]
  | succ n ih =>
    intro values trace
    have hb : array_get_body buf 0 ⟨s, 0, values, trace⟩ = .ok ⟨s, 0, values ++ [0], trace⟩ := by
      simp [array_get_body, array_get_while, Res.bind, CL, CHAR_BIT]
    rw [array_get_for, hb]
    simp only [Res.bind]
    rw [ih]
    simp [List.replicate_succ]

theorem array_put_for_width_zero (s : Nat) :
    ∀ (vs : List Nat) (buf : List Byte) (trace : List Nat),
      (∀ v ∈ vs, v < 2 ^ 64) → CL (s + 1) ≤ buf.length →
      ∃ out tr, array_put_for 0 vs ⟨buf, s, 0, trace⟩ = .ok ⟨out, s, 0, trace ++ tr⟩ ∧
        out.length = buf.length ∧
        ∀ q, bufBit out q = true ↔
          (bufBit buf q = true ∨
            ∃ v, v ∈ vs ∧ CL s * 8 ≤ q ∧ v.testBit (q - CL s * 8) = true) := by
  intro vs
  induction vs with
  | nil =>
    intro buf trace _ _
    exact ⟨buf, [], by simp [array_put_for], rfl, by simp⟩
  | cons v vs ih =>
    intro buf trace hvs hlen
    have hv : v < 2 ^ 64 := hvs v (by simp)
    obtain ⟨buf1, tr1, hrun1, hlen1, -, -, hbits1⟩ :=
      array_put_while_spec s 64 buf v 0 trace 64 hv (by omega) (by omega) hlen
    obtain ⟨out, tr2, hrun2, hlen2, hbits2⟩ :=
      ih buf1 (trace ++ tr1) (fun x hx => hvs x (by simp [hx])) (by rw [hlen1]; exact hlen)
    refine ⟨out, tr1 ++ tr2, ?_, by rw [hlen2, hlen1], ?_⟩
    · have hb : array_put_body 0 v ⟨buf, s, 0, trace⟩ = .ok ⟨buf1, s, 0, trace ++ tr1⟩ := by
        unfold array_put_body
        simp only [Nat.mod_eq_of_lt hv, hrun1, Res.bind, CL, CHAR_BIT]
        simp
      rw [array_put_for, hb]
      simp only [Res.bind]
      rw [hrun2, List.append_assoc]
    · intro q
      rw [hbits2 q, hbits1 q]
      simp only [Nat.add_zero]
      constructor
      · rintro ((h | ⟨h1, h2⟩) | ⟨x, hx, h1, h2⟩)
        · exact Or.inl h
        · exact Or.inr ⟨v, by simp, h1, h2⟩
        · exact Or.inr ⟨x, by simp [hx], h1, h2⟩
      · rintro (h | ⟨x, hx, h1, h2⟩)
        · exact Or.inl (Or.inl h)
        · rcases List.mem_cons.mp hx with e | e
          · subst e; exact Or.inl (Or.inr ⟨h1, h2⟩)
          · exact Or.inr ⟨x, e, h1, h2⟩

theorem array_get_while_too_wide (buf : List Byte) (W cl : Nat) (hW : 64 < W) :
    ∀ (fuel c acc : Nat) (trace : List Nat) (r : Nat × List Nat), c % 8 = 0 → c ≤ 64 →
      array_get_while buf W cl 0 fuel c acc trace ≠ .ok r := by
  intro fuel
  induction fuel with
  | zero =>
    intro c acc trace r _ hc
    have : c < W := by omega
    simp [array_get_while, this]
  | succ fuel ih =>
    intro c acc trace r hc8 hc
    have hcW : c < W := by omega
    rw [array_get_while, if_pos hcW]
    simp only [CHAR_BIT, Nat.zero_add]
    cases hl : load buf (CL cl + c / 8) with
    | fault e => simp [Res.bind]
    | ok b =>
      simp only [Res.bind]
      by_cases h64 : 64 ≤ c
      · rw [if_pos h64]
        simp
      · rw [if_neg h64]
        have hm : ¬ 8 - c % 8 > W - c := by omega
        simp only [hm, if_false]
        apply ih
        · omega
        · omega

theorem array_get_for_too_wide (buf : List Byte) (W : Nat) (hW : 64 < W) (s n : Nat)
    (hn : 1 ≤ n) (g : GetState) :
    array_get_for buf W n (array_get_init s) ≠ .ok g := by
  obtain ⟨m, hm⟩ : ∃ m, n = m + 1 := ⟨n - 1, by omega⟩
  subst hm
  rw [array_get_for]
  have hb : ∀ st1, array_get_body buf W (array_get_init s) ≠ .ok st1 := by
    intro st1
    unfold array_get_body array_get_init
    simp only []
    cases hw : array_get_while buf W s 0 W 0 0 [] with
    | fault e => simp [Res.bind]
    | ok r => exact absurd hw (array_get_while_too_wide buf W s hW W 0 0 [] r rfl (by omega))
  cases hb1 : array_get_body buf W (array_get_init s) with
  | fault e => simp [Res.bind]
  | ok st1 => exact absurd hb1 (hb st1)

/-- C16, as amended. The routines do not check `bitWidth`. With `bitWidth = 0`
`array_get` returns normally with all outputs 0, and `array_put` of 64-bit values into a
buffer that holds the start cache line returns normally after ORing every value into the
buffer from bit 0 of that cache line on. With `bitWidth > 64`, `array_get` of at least
one value does not return normally. -/
theorem bad_width_behaviour (buf : List Byte) (s n : Nat) (vs : List Nat) (W : Nat) :
    array_get buf s n 0 = .ok (List.replicate n 0) ∧
    ((∀ v ∈ vs, v < 2 ^ 64) → CL (s + 1) ≤ buf.length →
      ∃ out, array_put buf s vs 0 = .ok out ∧
        ∀ q, bufBit out q = true ↔
          (bufBit buf q = true ∨
            ∃ v, v ∈ vs ∧ CL s * 8 ≤ q ∧ v.testBit (q - CL s * 8) = true)) ∧
    (64 < W → 1 ≤ n → ∀ out, array_get buf s n W ≠ .ok out) := by
  refine ⟨?_, ?_, ?_⟩
  · unfold array_get array_get_init
    rw [array_get_for_width_zero]
    rfl
  · intro hvs hlen
    obtain ⟨out, tr, hrun, -, hbits⟩ := array_put_for_width_zero s vs buf [] hvs hlen
    refine ⟨out, ?_, hbits⟩
    unfold array_put array_put_init
    rw [hrun]
    rfl
  · intro hW hn out
    unfold array_get
    cases hf : array_get_for buf W n (array_get_init s) with
    | fault e => simp [Res.bind]
    | ok g => exact absurd hf (array_get_for_too_wide buf W hW s n hn g)

set_option maxRecDepth 100000 in
/-- Witness for C16 as amended: widths 0 and 65 on a zeroed cache line. -/
theorem bad_width_behaviour_witness :
    array_get (zeroBuffer 64) 0 3 0 = .ok (List.replicate 3 0) ∧
    (∃ out, array_put (zeroBuffer 64) 0 [5, 2] 0 = .ok out ∧
      ∀ q, bufBit out q = true ↔
        (bufBit (zeroBuffer 64) q = true ∨
          ∃ v, v ∈ [5, 2] ∧ CL 0 * 8 ≤ q ∧ v.testBit (q - CL 0 * 8) = true)) ∧
    (∀ out, array_get (zeroBuffer 64) 0 3 65 ≠ .ok out) :=
  ⟨(bad_width_behaviour (zeroBuffer 64) 0 3 [5, 2] 65).1,
    (bad_width_behaviour (zeroBuffer 64) 0 3 [5, 2] 65).2.1 (by decide) (by decide),
    (bad_width_behaviour (zeroBuffer 64) 0 3 [5, 2] 65).2.2 (by decide) (by decide)⟩

set_option maxRecDepth 100000 in
/-- C16, counterexample. With `bitWidth = 0`, and for `array_put` also with
`bitWidth = 65`, the calls return normally instead of reporting an error; `array_get`
has written its three outputs and `array_put` has modified the buffer. -/
theorem bad_width_counterexample :
    array_get (zeroBuffer 64) 0 3 0 = .ok [0, 0, 0] ∧
    array_put (zeroBuffer 64) 0 [5, 2] 0 = .ok ((7 : Byte) :: zeroBuffer 63) ∧
    array_put (zeroBuffer 64) 0 [5] 65 = .ok ((5 : Byte) :: zeroBuffer 63) := by
  decide

/-! ### Runs on a buffer that ends inside the cache-line range -/

/-- The `while` loop of `array_put` on a buffer that contains the bytes of the `m` bits
the value may occupy from `pos` on. -/
theorem array_put_while_tight (cl : Nat) :
    ∀ (fuel : Nat) (buf : List Byte) (value pos : Nat) (trace : List Nat) (m : Nat),
      value < 2 ^ m → m ≤ fuel → CL cl + (pos + m + 7) / 8 ≤ buf.length →
      ∃ buf1 tr, array_put_while cl fuel buf value pos trace = .ok (buf1, trace ++ tr) ∧
        buf1.length = buf.length ∧
        (∀ q, bufBit buf1 q = true ↔
          (bufBit buf q = true ∨
            (CL cl * 8 + pos ≤ q ∧ value.testBit (q - (CL cl * 8 + pos)) = true))) := by
  intro fuel
  induction fuel with
  | zero =>
    intro buf value pos trace m hv hm hlen
    have hm0 : m = 0 := by omega
    subst hm0
    have hv0 : value = 0 := by simpa using hv
    subst hv0
    exact ⟨buf, [], by simp [array_put_while], rfl, by simp⟩
  | succ fuel ih =>
    intro buf value pos trace m hv hm hlen
    by_cases hv0 : value = 0
    · subst hv0
      exact ⟨buf, [], by simp [array_put_while], rfl, by simp⟩
    · have hm1 : 1 ≤ m := by
        rcases Nat.eq_zero_or_pos m with h0 | h0
        · subst h0; simp at hv; exact absurd hv hv0
        · exact h0
      have hidx : CL cl + pos / 8 < buf.length := by omega
      have hd : pos % 8 < 8 := Nat.mod_lt _ (by norm_num)
      obtain ⟨buf2, tr2, hrun, hlen2, hbits2⟩ :=
        ih (buf.set (CL cl + pos / 8)
              (toChar (int_or (schar buf[CL cl + pos / 8])
                (schar (toChar ((((value &&& ((1 <<< (8 - pos % 8)) - 1)) <<< (pos % 8)) % 2 ^ 64 : Nat) : Int))))))
          (value >>> (8 - pos % 8)) (pos + (8 - pos % 8)) (trace ++ [CL cl + pos / 8])
          (m - (8 - pos % 8)) (shiftRight_lt_two_pow _ _ _ hv) (by omega)
          (by rw [List.length_set]; omega)
      refine ⟨buf2, (CL cl + pos / 8) :: tr2, ?_, ?_, ?_⟩
      · rw [array_put_while]
        simp only [CHAR_BIT]
        rw [if_pos (Nat.pos_of_ne_zero hv0), load_ok _ _ hidx]
        simp only [Res.bind]
        rw [store_ok _ _ _ hidx]
        simp only [Res.bind]
        rw [hrun]
        simp
      · rw [hlen2, List.length_set]
      · intro q
        rw [hbits2 q, bufBit_set _ _ _ _ hidx, Nat.testBit_shiftRight]
        have hq8 : q % 8 < 8 := Nat.mod_lt _ (by norm_num)
        by_cases hq : q / 8 = CL cl + pos / 8
        · rw [if_pos hq, toChar_int_or, Nat.testBit_or, put_chunk_testBit _ _ _ hd hq8,
            bufBit_eq_of_getElem buf q buf[CL cl + pos / 8]
              (by rw [hq]; exact List.getElem?_eq_getElem hidx)]
          have e1 : ¬ (CL cl * 8 + (pos + (8 - pos % 8)) ≤ q) := by unfold CL at *; omega
          by_cases hdq : pos % 8 ≤ q % 8
          · have e2 : CL cl * 8 + pos ≤ q := by unfold CL at *; omega
            have e3 : q - (CL cl * 8 + pos) = q % 8 - pos % 8 := by unfold CL at *; omega
            simp [e1, e2, e3, hdq]
          · have e2 : ¬ (CL cl * 8 + pos ≤ q) := by unfold CL at *; omega
            simp [e1, e2, hdq]
        · rw [if_neg hq]
          by_cases hge : CL cl * 8 + pos ≤ q
          · have e1 : CL cl * 8 + (pos + (8 - pos % 8)) ≤ q := by unfold CL at *; omega
            have e3 : 8 - pos % 8 + (q - (CL cl * 8 + (pos + (8 - pos % 8))))
                = q - (CL cl * 8 + pos) := by omega
            simp [e1, hge, e3]
          · have e1 : ¬ (CL cl * 8 + (pos + (8 - pos % 8)) ≤ q) := by omega
            simp [e1, hge]

theorem fieldEnd_eq (s W i : Nat) :
    (fieldPos s W i + W + 7) / 8
      = CL (s + i / perLine W) + ((i % perLine W) * W + W + 7) / 8 := by
  rw [fieldPos_eq]
  omega

theorem array_put_body_tight (s W : Nat) (hW1 : 1 ≤ W) (hW : W ≤ 64) (v i : Nat)
    (buf : List Byte) (trace : List Nat) (hv : v < 2 ^ W)
    (hlen : (fieldPos s W i + W + 7) / 8 ≤ buf.length) :
    ∃ buf1 tr,
      array_put_body W v ⟨buf, s + i / perLine W, (i % perLine W) * W, trace⟩
        = .ok ⟨buf1, s + (i + 1) / perLine W, ((i + 1) % perLine W) * W, trace ++ tr⟩ ∧
      buf1.length = buf.length ∧
      (∀ q, bufBit buf1 q = true ↔
        (bufBit buf q = true ∨
          (fieldPos s W i ≤ q ∧ v.testBit (q - fieldPos s W i) = true))) := by
  have hv64 : v % 2 ^ 64 = v :=
    Nat.mod_eq_of_lt (lt_of_lt_of_le hv (Nat.pow_le_pow_right (by norm_num) hW))
  rw [fieldEnd_eq] at hlen
  obtain ⟨buf1, tr, hrun, hlen1, hbits⟩ :=
    array_put_while_tight (s + i / perLine W) 64 buf v ((i % perLine W) * W) trace W hv hW hlen
  have hstep := cursor_step s W i hW1 (by omega)
  refine ⟨buf1, tr, ?_, hlen1, ?_⟩
  · unfold array_put_body
    simp only [hv64, hrun, Res.bind]
    by_cases hroll : (i % perLine W) * W + W + W > CL 1 * CHAR_BIT
    · rw [if_pos hroll] at hstep ⊢
      rw [← hstep.1, ← hstep.2]
    · rw [if_neg hroll] at hstep ⊢
      rw [← hstep.1, ← hstep.2]
  · intro q
    rw [hbits q, fieldPos_eq]

theorem array_put_for_tight (s W : Nat) (hW1 : 1 ≤ W) (hW : W ≤ 64) :
    ∀ (vs : List Nat) (i : Nat) (buf : List Byte) (trace : List Nat),
      (∀ v ∈ vs, v < 2 ^ W) →
      (∀ j, j < vs.length → (fieldPos s W (i + j) + W + 7) / 8 ≤ buf.length) →
      ∃ buf1 tr,
        array_put_for W vs ⟨buf, s + i / perLine W, (i % perLine W) * W, trace⟩
          = .ok ⟨buf1, s + (i + vs.length) / perLine W,
              ((i + vs.length) % perLine W) * W, trace ++ tr⟩ ∧
        buf1.length = buf.length ∧
        (∀ q, bufBit buf1 q = true ↔
          (bufBit buf q = true ∨
            ∃ j, j < vs.length ∧ fieldPos s W (i + j) ≤ q ∧
              (vs.getD j 0).testBit (q - fieldPos s W (i + j)) = true)) := by
  intro vs
  induction vs with
  | nil =>
    intro i buf trace _ _
    exact ⟨buf, [], by simp [array_put_for], rfl, by simp⟩
  | cons v vs ih =>
    intro i buf trace hvs hlen
    obtain ⟨buf1, tr1, hrun1, hlen1, hbits1⟩ :=
      array_put_body_tight s W hW1 hW v i buf trace (hvs v (by simp))
        (by simpa using hlen 0 (by simp))
    have hassoc : i + 1 + vs.length = i + (v :: vs).length := by simp; omega
    obtain ⟨buf2, tr2, hrun2, hlen2, hbits2⟩ :=
      ih (i + 1) buf1 (trace ++ tr1) (fun x hx => hvs x (by simp [hx]))
        (by
          intro j hj
          have := hlen (j + 1) (by simpa using hj)
          have e : i + (j + 1) = i + 1 + j := by omega
          rw [e] at this
          rw [hlen1]; exact this)
    rw [hassoc] at hrun2
    refine ⟨buf2, tr1 ++ tr2, ?_, by rw [hlen2, hlen1], ?_⟩
    · rw [array_put_for, hrun1]
      simp only [Res.bind]
      rw [hrun2, List.append_assoc]
    · intro q
      rw [hbits2 q, hbits1 q]
      constructor
      · rintro ((h | ⟨h1, h2⟩) | ⟨j, hj, h1, h2⟩)
        · exact Or.inl h
        · exact Or.inr ⟨0, by simp, by simpa using h1, by simpa using h2⟩
        · refine Or.inr ⟨j + 1, by simpa using hj, ?_, ?_⟩
          · have : i + (j + 1) = i + 1 + j := by omega
            rw [this]; exact h1
          · have : i + (j + 1) = i + 1 + j := by omega
            rw [this]; simpa using h2
      · rintro (h | ⟨j, hj, h1, h2⟩)
        · exact Or.inl (Or.inl h)
        · cases j with
          | zero => exact Or.inl (Or.inr ⟨by simpa using h1, by simpa using h2⟩)
          | succ j =>
            refine Or.inr ⟨j, by simpa using hj, ?_, ?_⟩
            · have : i + 1 + j = i + (j + 1) := by omega
              rw [this]; exact h1
            · have : i + 1 + j = i + (j + 1) := by omega
              rw [this]; simpa using h2

theorem array_get_body_tight (buf : List Byte) (s W i : Nat) (hW1 : 1 ≤ W) (hW : W ≤ 64)
    (values : List Nat) (trace : List Nat)
    (hlen : (fieldPos s W i + W + 7) / 8 ≤ buf.length) :
    ∃ v tr,
      array_get_body buf W ⟨s + i / perLine W, (i % perLine W) * W, values, trace⟩
        = .ok ⟨s + (i + 1) / perLine W, ((i + 1) % perLine W) * W, values ++ [v],
            trace ++ tr⟩ ∧
      ∀ x, v.testBit x = getBit buf (fieldPos s W i) W x := by
  rw [fieldEnd_eq] at hlen
  obtain ⟨v, tr, hrun, hbits⟩ :=
    array_get_while_bits_tight buf W (s + i / perLine W) ((i % perLine W) * W) trace hW1 hW hlen
  have hstep := cursor_step s W i hW1 (by omega)
  refine ⟨v, tr, ?_, ?_⟩
  · unfold array_get_body
    simp only [hrun, Res.bind]
    by_cases hroll : (i % perLine W) * W + W + W > CL 1 * CHAR_BIT
    · rw [if_pos hroll] at hstep ⊢
      rw [← hstep.1, ← hstep.2]
    · rw [if_neg hroll] at hstep ⊢
      rw [← hstep.1, ← hstep.2]
  · intro x
    rw [hbits x, fieldPos_eq]

theorem array_get_for_tight (buf : List Byte) (s W : Nat) (hW1 : 1 ≤ W) (hW : W ≤ 64) :
    ∀ (n i : Nat) (values : List Nat) (trace : List Nat),
      (∀ j, j < n → (fieldPos s W (i + j) + W + 7) / 8 ≤ buf.length) →
      ∃ vals tr,
        array_get_for buf W n ⟨s + i / perLine W, (i % perLine W) * W, values, trace⟩
          = .ok ⟨s + (i + n) / perLine W, ((i + n) % perLine W) * W, values ++ vals,
              trace ++ tr⟩ ∧
        vals.length = n ∧
        ∀ j, j < n → ∀ x, (vals.getD j 0).testBit x = getBit buf (fieldPos s W (i + j)) W x := by
  intro n
  induction n with
  | zero =>
    intro i values trace _
    exact ⟨[], [], by simp [array_get_for], rfl, by intro j hj; omega⟩
  | succ n ih =>
    intro i values trace hlen
    obtain ⟨v, tr1, hrun1, hbits1⟩ :=
      array_get_body_tight buf s W i hW1 hW values trace (by simpa using hlen 0 (by omega))
    have hassoc : i + 1 + n = i + (n + 1) := by omega
    obtain ⟨vals, tr2, hrun2, hlen2, hbits2⟩ :=
      ih (i + 1) (values ++ [v]) (trace ++ tr1)
        (by
          intro j hj
          have := hlen (j + 1) (by omega)
          have e : i + (j + 1) = i + 1 + j := by omega
          rw [e] at this
          exact this)
    rw [hassoc] at hrun2
    refine ⟨v :: vals, tr1 ++ tr2, ?_, by simp [hlen2], ?_⟩
    · rw [array_get_for, hrun1]
      simp only [Res.bind]
      rw [hrun2]
      simp
    · intro j hj x
      cases j with
      | zero => simpa using hbits1 x
      | succ j =>
        have := hbits2 j (by omega) x
        have e : i + 1 + j = i + (j + 1) := by omega
        rw [e] at this
        simpa using this

theorem load_ok_lt (buf : List Byte) (idx : Nat) (b : Byte) (h : load buf idx = .ok b) :
    idx < buf.length := by
  unfold load at h
  by_contra hlt
  rw [List.getElem?_eq_none (by omega)] at h
  cases h

/-- The `while` loop of `array_get` on a buffer that does not contain the last byte of
the field: the loop does not return. -/
theorem array_get_while_short (buf : List Byte) (W cl bp : Nat) (hW : W ≤ 64)
    (hshort : buf.length ≤ CL cl + (bp + W - 1) / 8) :
    ∀ (fuel c acc : Nat) (trace : List Nat) (r : Nat × List Nat), c < W →
      array_get_while buf W cl bp fuel c acc trace ≠ .ok r := by
  intro fuel
  induction fuel with
  | zero =>
    intro c acc trace r hc
    simp [array_get_while, hc]
  | succ fuel ih =>
    intro c acc trace r hc
    rw [array_get_while, if_pos hc]
    simp only [CHAR_BIT]
    cases hl : load buf (CL cl + (bp + c) / 8) with
    | fault e => simp [Res.bind]
    | ok b =>
      have hidx := load_ok_lt _ _ _ hl
      simp only [Res.bind]
      have h64 : ¬ 64 ≤ c := by omega
      rw [if_neg h64]
      have hm : ¬ 8 - (bp + c) % 8 > W - c := by omega
      simp only [hm, if_false]
      exact ih _ _ _ r (by omega)

theorem fieldLast_eq (s W i : Nat) (hW1 : 1 ≤ W) :
    (fieldPos s W i + W - 1) / 8
      = CL (s + i / perLine W) + ((i % perLine W) * W + W - 1) / 8 := by
  rw [fieldPos_eq]
  omega

theorem array_get_for_short (buf : List Byte) (s W : Nat) (hW1 : 1 ≤ W) (hW : W ≤ 64) :
    ∀ (n i : Nat) (st : GetState) (g : GetState),
      st.cacheLine = s + i / perLine W → st.bitPosInCL = (i % perLine W) * W →
      (∃ j, j < n ∧ buf.length ≤ (fieldPos s W (i + j) + W - 1) / 8) →
      array_get_for buf W n st ≠ .ok g := by
  intro n
  induction n with
  | zero =>
    intro i st g _ _ h
    obtain ⟨j, hj, -⟩ := h
    omega
  | succ n ih =>
    intro i st g hcl hbp h
    rw [array_get_for]
    cases hb : array_get_body buf W st with
    | fault e => simp [Res.bind]
    | ok st1 =>
      simp only [Res.bind]
      obtain ⟨c1, c2⟩ := array_get_body_cursor buf s W i hW1 (by omega) st st1 hcl hbp hb
      obtain ⟨j, hj, hshort⟩ := h
      cases j with
      | zero =>
        exfalso
        rw [Nat.add_zero, fieldLast_eq s W i hW1] at hshort
        unfold array_get_body at hb
        rw [hcl, hbp] at hb
        cases hw : array_get_while buf W (s + i / perLine W) ((i % perLine W) * W) W 0 0
            st.trace with
        | fault e => rw [hw] at hb; simp [Res.bind] at hb
        | ok r =>
          exact array_get_while_short buf W _ _ hW hshort W 0 0 st.trace r (by omega) hw
      | succ j =>
        refine ih (i + 1) st1 g c1 c2 ⟨j, by omega, ?_⟩
        have e : i + 1 + j = i + (j + 1) := by omega
        rw [e]
        exact hshort

/-! ### Absence of a bounds check -/

theorem array_put_while_fault (cl : Nat) :
    ∀ (fuel : Nat) (buf : List Byte) (value pos : Nat) (trace : List Nat) (e : Fault),
      value < 2 ^ fuel → array_put_while cl fuel buf value pos trace = .fault e →
      e = .outOfBounds := by
  intro fuel
  induction fuel with
  | zero =>
    intro buf value pos trace e hv h
    have hv0 : ¬ value > 0 := by simp at hv; omega
    simp [array_put_while, hv0] at h
  | succ fuel ih =>
    intro buf value pos trace e hv h
    by_cases hv0 : value > 0
    · rw [array_put_while, if_pos hv0] at h
      simp only [] at h
      cases hl : load buf (CL cl + pos / CHAR_BIT) with
      | fault e1 =>
        rw [hl] at h
        simp only [Res.bind] at h
        injection h with h
        rw [← h]
        exact load_fault _ _ _ hl
      | ok old =>
        rw [hl] at h
        simp only [Res.bind] at h
        cases hs : store buf (CL cl + pos / CHAR_BIT)
            (toChar (int_or (schar old) (schar (toChar ((((value &&&
              ((1 <<< (CHAR_BIT - pos % CHAR_BIT)) - 1)) <<< (pos % CHAR_BIT)) % 2 ^ 64 : Nat)
                : Int))))) with
        | fault e1 =>
          rw [hs] at h
          simp only [] at h
          injection h with h
          rw [← h]
          exact store_fault _ _ _ _ hs
        | ok buf1 =>
          rw [hs] at h
          simp only [] at h
          refine ih _ _ _ _ e ?_ h
          have h1 := shiftRight_lt_two_pow value (CHAR_BIT - pos % CHAR_BIT) (fuel + 1) hv
          have h2 : fuel + 1 - (CHAR_BIT - pos % CHAR_BIT) ≤ fuel := by
            unfold CHAR_BIT; omega
          exact lt_of_lt_of_le h1 (Nat.pow_le_pow_right (by norm_num) h2)
    · simp [array_put_while, hv0] at h

theorem array_put_for_fault (W : Nat) :
    ∀ (vs : List Nat) (st : PutState) (e : Fault),
      array_put_for W vs st = .fault e → e = .outOfBounds := by
  intro vs
  induction vs with
  | nil => intro st e h; simp [array_put_for] at h
  | cons v vs ih =>
    intro st e h
    rw [array_put_for] at h
    cases hb : array_put_body W v st with
    | fault e1 =>
      rw [hb] at h
      simp only [Res.bind] at h
      injection h with h
      rw [← h]
      unfold array_put_body at hb
      cases hw : array_put_while st.cacheLine 64 st.buf (v % 2 ^ 64) st.bitPosInCL st.trace with
      | fault e2 =>
        rw [hw] at hb
        simp only [Res.bind] at hb
        injection hb with hb
        rw [← hb]
        exact array_put_while_fault _ 64 _ _ _ _ e2 (Nat.mod_lt _ (by norm_num)) hw
      | ok r =>
        rw [hw] at hb
        simp only [Res.bind] at hb
        split at hb <;> cases hb
    | ok st1 =>
      rw [hb] at h
      simp only [Res.bind] at h
      exact ih st1 e h

theorem array_get_while_fault (buf : List Byte) (W cl bp : Nat) (hW : W ≤ 64) :
    ∀ (fuel consumed acc : Nat) (trace : List Nat) (e : Fault), W - consumed ≤ fuel →
      array_get_while buf W cl bp fuel consumed acc trace = .fault e → e = .outOfBounds := by
  intro fuel
  induction fuel with
  | zero =>
    intro consumed acc trace e hfuel h
    have hc : ¬ consumed < W := by omega
    simp [array_get_while, hc] at h
  | succ fuel ih =>
    intro consumed acc trace e hfuel h
    by_cases hc : consumed < W
    · rw [array_get_while, if_pos hc] at h
      simp only [] at h
      cases hl : load buf (CL cl + (bp + consumed) / CHAR_BIT) with
      | fault e1 =>
        rw [hl] at h
        simp only [Res.bind] at h
        injection h with h
        rw [← h]
        exact load_fault _ _ _ hl
      | ok b =>
        rw [hl] at h
        simp only [Res.bind] at h
        have h64 : ¬ 64 ≤ consumed := by omega
        rw [if_neg h64] at h
        refine ih _ _ _ e ?_ h
        unfold CHAR_BIT
        split <;> omega
    · simp [array_get_while, hc] at h

theorem array_get_for_fault (buf : List Byte) (W : Nat) (hW : W ≤ 64) :
    ∀ (n : Nat) (st : GetState) (e : Fault),
      array_get_for buf W n st = .fault e → e = .outOfBounds := by
  intro n
  induction n with
  | zero => intro st e h; simp [array_get_for] at h
  | succ n ih =>
    intro st e h
    rw [array_get_for] at h
    cases hb : array_get_body buf W st with
    | fault e1 =>
      rw [hb] at h
      simp only [Res.bind] at h
      injection h with h
      rw [← h]
      unfold array_get_body at hb
      cases hw : array_get_while buf W st.cacheLine st.bitPosInCL W 0 0 st.trace with
      | fault e2 =>
        rw [hw] at hb
        simp only [Res.bind] at hb
        injection hb with hb
        rw [← hb]
        exact array_get_while_fault buf W _ _ hW W 0 0 _ e2 (by omega) hw
      | ok r =>
        rw [hw] at hb
        simp only [Res.bind] at hb
        split at hb <;> cases hb
    | ok st1 =>
      rw [hb] at h
      simp only [Res.bind] at h
      exact ih st1 e h

/-- C17, as amended. The routines contain no bounds check: what a call does depends on
the bytes it accesses, not on its cache-line range. For `1 ≤ W ≤ 64`: if the buffer
contains every byte that holds a bit of one of the fields, `array_get` and `array_put`
(of values below `2^W`) return normally with their usual results, also when the
cache-line range of the call extends past the buffer; if some field has a byte outside
the buffer, `array_get` ends in an access outside the buffer (undefined in C, the fault
`outOfBounds` of the embedding). `array_put` of values that are all zero returns normally
on every buffer, and an `array_put` that does not return normally ends in such an access
as well. -/
theorem no_bounds_check (buf : List Byte) (s n : Nat) (vs : List Nat) (W : Nat)
    (hW1 : 1 ≤ W) (hW : W ≤ 64) :
    ((∀ j, j < n → (fieldPos s W j + W + 7) / 8 ≤ buf.length) →
      ∃ out, array_get buf s n W = .ok out ∧ out.length = n ∧
        ∀ j, j < n → ∀ x, (out.getD j 0).testBit x = getBit buf (fieldPos s W j) W x) ∧
    ((¬ ∀ j, j < n → (fieldPos s W j + W + 7) / 8 ≤ buf.length) →
      array_get buf s n W = .fault .outOfBounds) ∧
    ((∀ v ∈ vs, v < 2 ^ W) →
      (∀ j, j < vs.length → (fieldPos s W j + W + 7) / 8 ≤ buf.length) →
      ∃ out, array_put buf s vs W = .ok out ∧ out.length = buf.length ∧
        ∀ q, bufBit out q = true ↔
          (bufBit buf q = true ∨
            ∃ j, j < vs.length ∧ fieldPos s W j ≤ q ∧
              (vs.getD j 0).testBit (q - fieldPos s W j) = true)) ∧
    array_put buf s (List.replicate n 0) W = .ok buf ∧
    (∀ e, array_put buf s vs W = .fault e → e = .outOfBounds) := by
  have e0 : (0 : Nat) / perLine W = 0 := Nat.zero_div _
  have e1 : (0 : Nat) % perLine W = 0 := Nat.zero_mod _
  refine ⟨?_, ?_, ?_, ?_, ?_⟩
  · intro hfields
    obtain ⟨vals, tr, hrun, hl, hbits⟩ :=
      array_get_for_tight buf s W hW1 hW n 0 [] [] (by simpa using hfields)
    rw [e0, e1] at hrun
    simp only [Nat.add_zero, Nat.zero_mul, Nat.zero_add, List.nil_append] at hrun hbits
    refine ⟨vals, ?_, hl, hbits⟩
    unfold array_get array_get_init
    rw [hrun]
    rfl
  · intro hnot
    have hex : ∃ j, j < n ∧ buf.length ≤ (fieldPos s W (0 + j) + W - 1) / 8 := by
      by_contra hcon
      apply hnot
      intro j hj
      by_contra hj2
      exact hcon ⟨j, hj, by rw [Nat.zero_add]; omega⟩
    unfold array_get
    cases hf : array_get_for buf W n (array_get_init s) with
    | fault e =>
      rw [array_get_for_fault buf W hW n _ e hf]
      rfl
    | ok g =>
      exact absurd hf
        (array_get_for_short buf s W hW1 hW n 0 (array_get_init s) g
          (by simp [array_get_init]) (by simp [array_get_init]) hex)
  · intro hvs hfields
    obtain ⟨out, tr, hrun, hl, hbits⟩ :=
      array_put_for_tight s W hW1 hW vs 0 buf [] hvs (by simpa using hfields)
    rw [e0, e1] at hrun
    simp only [Nat.add_zero, Nat.zero_mul, Nat.zero_add, List.nil_append] at hrun hbits
    refine ⟨out, ?_, hl, hbits⟩
    unfold array_put array_put_init
    rw [hrun]
    rfl
  · unfold array_put
    obtain ⟨cl, bp, h⟩ := array_put_for_zeros W n (array_put_init buf s)
    rw [h]
    rfl
  · intro e h
    unfold array_put at h
    cases hf : array_put_for W vs (array_put_init buf s) with
    | fault e1 =>
      rw [hf] at h
      simp only [Res.bind] at h
      injection h with h
      rw [← h]
      exact array_put_for_fault W vs _ e1 hf
    | ok st =>
      rw [hf] at h
      simp [Res.bind] at h

/-- Witness for C17 as amended: on a buffer of three bytes, whose length is far below the
64 bytes of the cache-line range, two 12-bit values are unpacked and packed normally,
while a third value, whose second byte is outside the buffer, makes `array_get` fault. -/
theorem no_bounds_check_witness :
    array_get [(0x05 : Byte), 0x73, 0x7e] 0 2 12 = .ok [0x305, 0x7e7] ∧
    array_put [(0 : Byte), 0, 0] 0 [0x305, 0x7e7] 12 = .ok [(0x05 : Byte), 0x73, 0x7e] ∧
    (∃ out, array_get [(0x05 : Byte), 0x73, 0x7e] 0 2 12 = .ok out ∧ out.length = 2 ∧
      ∀ j, j < 2 → ∀ x,
        (out.getD j 0).testBit x
          = getBit [(0x05 : Byte), 0x73, 0x7e] (fieldPos 0 12 j) 12 x) ∧
    array_get [(0x05 : Byte), 0x73, 0x7e] 0 3 12 = .fault .outOfBounds ∧
    (∃ out, array_put [(0 : Byte), 0, 0] 0 [0x305, 0x7e7] 12 = .ok out ∧
      out.length = [(0 : Byte), 0, 0].length ∧
      ∀ q, bufBit out q = true ↔
        (bufBit [(0 : Byte), 0, 0] q = true ∨
          ∃ j, j < [0x305, 0x7e7].length ∧ fieldPos 0 12 j ≤ q ∧
            ([0x305, 0x7e7].getD j 0).testBit (q - fieldPos 0 12 j) = true)) :=
  ⟨by decide, by decide,
    (no_bounds_check [(0x05 : Byte), 0x73, 0x7e] 0 2 [] 12 (by decide) (by decide)).1
      (by decide),
    (no_bounds_check [(0x05 : Byte), 0x73, 0x7e] 0 3 [] 12 (by decide) (by decide)).2.1
      (by decide),
    (no_bounds_check [(0 : Byte), 0, 0] 0 0 [0x305, 0x7e7] 12 (by decide) (by decide)).2.2.1
      (by decide) (by decide)⟩

/-- C17, counterexample. The cache-line range `[0, 64)` of these calls extends past the
buffer, yet they return normally: `array_put` of the value 1 and `array_get` of one value
at width 8 on a buffer of one byte, and `array_put` of three zero values on an empty
buffer. -/
theorem no_bounds_check_counterexample :
    [(0 : Byte)].length < CL (0 + linesNeeded 8 1) ∧
    array_put [(0 : Byte)] 0 [1] 8 = .ok [(1 : Byte)] ∧
    array_get [(5 : Byte)] 0 1 8 = .ok [5] ∧
    array_put [] 0 [0, 0, 0] 8 = .ok [] := by
  decide

end HelloAfu
